import Mathlib

/-!
Verification development for the media-scraping pipeline of
`scrape_media.py` (ApexAgent-Scraper).

The Python source is shallowly embedded: pure string/byte manipulation
(`urllib.parse`, `os.path`, `base64`, `hashlib.sha256`, the `url(...)`
regular expression, filename derivation) is translated to executable Lean
functions, and the effectful parts (Playwright page queries, HTTP
requests, the filesystem) are modelled by explicit inputs/oracles and an
explicit filesystem state.  Machine integers are modelled as `Nat` with
explicit reduction mod `2 ^ 32` where overflow matters.

Modelling conventions, fixed once here:
* `urllib.parse` is embedded after CPython 3.11 (WHATWG control-character
  stripping, scheme detection requiring a leading ASCII letter).  The
  `ValueError` raised for unbalanced brackets in a netloc is modelled by
  `Option`; the NFKC netloc check and the bracketed-host validation,
  which no ASCII bracket-free input can trigger, are not modelled.
* Python `str` case mapping and whitespace splitting are modelled on
  their ASCII fragments, which is exact for every input exercised here.
* A raised-and-uncaught exception makes the embedded function return
  `none`; a `try`/`except` in the source is a `match` on that `Option`.
-/

namespace Scrape

/-! ## Small string helpers (Python `str` primitives) -/

/-- ASCII lower-casing of one character, the fragment of `str.lower`
relevant to URL schemes and `rel` attributes. -/
def lowerChar (c : Char) : Char :=
  if 'A' ≤ c ∧ c ≤ 'Z' then Char.ofNat (c.toNat + 32) else c

/-- ASCII lower-casing of a string. -/
def strLower (s : String) : String := String.mk (s.data.map lowerChar)

/-- The ASCII characters Python `str.strip()` / `str.split()` treat as
whitespace. -/
def pyIsSpace (c : Char) : Bool :=
  c = ' ' ∨ c = '\t' ∨ c = '\n' ∨ c = '\r' ∨ c.toNat = 11 ∨ c.toNat = 12

/-- Python `str.strip()` (no argument): drop whitespace on both ends. -/
def pyStrip (s : String) : String :=
  String.mk (((s.data.dropWhile pyIsSpace).reverse.dropWhile pyIsSpace).reverse)

/-- Python `str.split()` (no argument): split on whitespace runs,
discarding empty tokens. -/
def wsTokens (s : String) : List String :=
  ((s.data.splitOnP pyIsSpace).map String.mk).filter (· ≠ "")

/-- Python `s.startswith(pre)`: list-level prefix test (kernel-reducible,
unlike `String.startsWith`). -/
def strStarts (s pre : String) : Bool := pre.data.isPrefixOf s.data

/-- Python `s.endswith(post)`: list-level suffix test. -/
def strEnds (s post : String) : Bool := post.data.reverse.isPrefixOf s.data.reverse

/-- Python `s.split(c)` for a one-character separator, on char lists. -/
def splitOnChar (c : Char) : List Char → List (List Char)
  | [] => [[]]
  | x :: rest =>
      if x = c then [] :: splitOnChar c rest
      else
        match splitOnChar c rest with
        | r :: rs => (x :: r) :: rs
        | [] => [[x]]

/-- Python `s.split(c)` for a one-character separator. -/
def strSplit (s : String) (c : Char) : List String := (splitOnChar c s.data).map String.mk

/-- Code-point lexicographic `≤` on char lists, Python's string order. -/
def listLe : List Char → List Char → Bool
  | [], _ => true
  | _ :: _, [] => false
  | a :: as, b :: bs =>
      if a.toNat < b.toNat then true
      else if b.toNat < a.toNat then false
      else listLe as bs

/-- Python `a <= b` on strings. -/
def strLe (a b : String) : Bool := listLe a.data b.data

/-- Negation test against a fixed character (Python `x != c`). -/
def neChar (c : Char) : Char → Bool := fun x => x ≠ c

/-- Python `s.split(c, 1)` when the separator occurs: the part before the
first occurrence of `c` and the part after it; `none` when `c` is absent. -/
def splitOnce (c : Char) (s : String) : Option (String × String) :=
  let pre := s.data.takeWhile (neChar c)
  if pre.length = s.data.length then none
  else some (String.mk pre, String.mk (s.data.drop (pre.length + 1)))

/-- Python `needle in hay` for strings: substring test. -/
def strHasSub (needle hay : String) : Bool :=
  (hay.data.tails).any (fun t => needle.data.isPrefixOf t)

/-- Python `c in s` for a single character. -/
def hasChar (c : Char) (s : String) : Bool := s.data.contains c

/-- Add to a Python `set` modelled as a duplicate-free list: insert only
when absent (membership is what matters; insertion order is kept so the
model stays executable). -/
def addUniq (l : List String) (s : String) : List String :=
  if s ∈ l then l else l ++ [s]

/-- Insert into a ≤-sorted list of strings (code-point lexicographic,
Python's string order). -/
def insertSorted (x : String) : List String → List String
  | [] => [x]
  | y :: ys => if strLe x y then x :: y :: ys else y :: insertSorted x ys

/-- Python `sorted` on strings.  On duplicate-free input this agrees with
any correct sort, insertion sort included. -/
def pySort : List String → List String
  | [] => []
  | x :: xs => insertSorted x (pySort xs)

/-! ## Decimal rendering of `Nat` (Python `f"…{counter}…"`) -/

/-- One decimal digit. -/
def decDigit (n : Nat) : Char := Char.ofNat (48 + n)

/-- Decimal digits of `n`, most significant first; `fuel` bounds the
recursion depth and `n + 1` is always enough. -/
def decDigitsAux : Nat → Nat → List Char
  | 0, _ => []
  | fuel + 1, n =>
      if n < 10 then [decDigit n]
      else decDigitsAux fuel (n / 10) ++ [decDigit (n % 10)]

/-- Decimal digits of `n`, most significant first. -/
def decDigits (n : Nat) : List Char := decDigitsAux (n + 1) n

/-- Decimal rendering of a natural number, as Python string formatting
produces it. -/
def natDec (n : Nat) : String := String.mk (decDigits n)

/-! ## UTF-8 and hex -/

/-- UTF-8 encoding of one code point (Python `str.encode("utf-8")`),
bytes as `Nat`. -/
def utf8Char (c : Char) : List Nat :=
  let n := c.toNat
  if n < 0x80 then [n]
  else if n < 0x800 then [0xC0 + n / 64, 0x80 + n % 64]
  else if n < 0x10000 then [0xE0 + n / 4096, 0x80 + n / 64 % 64, 0x80 + n % 64]
  else [0xF0 + n / 262144, 0x80 + n / 4096 % 64, 0x80 + n / 64 % 64, 0x80 + n % 64]

/-- UTF-8 encoding of a string as a byte list. -/
def utf8Bytes (s : String) : List Nat := s.data.flatMap utf8Char

/-- One lowercase hex digit. -/
def hexDigit (n : Nat) : Char :=
  if n < 10 then Char.ofNat (48 + n) else Char.ofNat (87 + n)

/-- Lowercase hex rendering of a byte list (Python `hexdigest`). -/
def hexOfBytes (bs : List Nat) : String :=
  String.mk (bs.flatMap (fun b => [hexDigit (b / 16 % 16), hexDigit (b % 16)]))

/-! ## Base64 decoding (Python `base64.b64decode` on `str` input) -/

/-- Value of a base64 alphabet character. -/
def b64Val (c : Char) : Option Nat :=
  if 'A' ≤ c ∧ c ≤ 'Z' then some (c.toNat - 65)
  else if 'a' ≤ c ∧ c ≤ 'z' then some (c.toNat - 97 + 26)
  else if '0' ≤ c ∧ c ≤ '9' then some (c.toNat - 48 + 52)
  else if c = '+' then some 62
  else if c = '/' then some 63
  else none

/-- Decode a run of base64 data characters (padding already stripped)
into bytes; the caller has checked the length is admissible. -/
def b64Quads : List Nat → List Nat
  | a :: b :: c :: d :: rest =>
      let n := ((a * 64 + b) * 64 + c) * 64 + d
      n / 65536 % 256 :: n / 256 % 256 :: n % 256 :: b64Quads rest
  | [a, b] => [(a * 64 + b) / 16 % 256]
  | [a, b, c] => let n := (a * 64 + b) * 64 + c; [n / 1024 % 256, n / 4 % 256]
  | _ => []

/-- Python `base64.b64decode` on a `str`, legacy (non-strict) mode: the
input must be ASCII (else `str.encode("ascii")` raises); characters
outside the alphabet and `'='` are discarded; data characters before the
first `'='` are decoded in quads; a trailing group of 2 or 3 characters
needs padding to be present, a group of 1 is always an error. -/
def b64decode (s : String) : Option (List Nat) :=
  if ¬ s.data.all (fun c => c.toNat ≤ 127) then none
  else
    let kept := s.data.filter (fun c => (b64Val c).isSome ∨ c = '=')
    let dataChars := kept.takeWhile (· ≠ '=')
    let pads := (kept.drop dataChars.length).length
    let vals := dataChars.filterMap b64Val
    if vals.length % 4 = 1 then none
    else if vals.length % 4 ≠ 0 ∧ pads = 0 then none
    else some (b64Quads vals)

/-! ## SHA-256 (`hashlib.sha256`), words as `Nat` mod `2 ^ 32` -/

/-- Truncate to a 32-bit word. -/
def w32 (n : Nat) : Nat := n % 4294967296

/-- 32-bit right-rotation. -/
def rotr (k n : Nat) : Nat := w32 (n / 2 ^ k + n % 2 ^ k * 2 ^ (32 - k))

/-- The eight initial hash words of SHA-256, in decimal. -/
def shaH0 : List Nat :=
  [1779033703, 3144134277, 1013904242, 2773480762,
   1359893119, 2600822924, 528734635, 1541459225]

/-- The 64 SHA-256 round constants, in decimal. -/
def shaK : List Nat :=
  [1116352408, 1899447441, 3049323471, 3921009573,
   961987163, 1508970993, 2453635748, 2870763221,
   3624381080, 310598401, 607225278, 1426881987,
   1925078388, 2162078206, 2614888103, 3248222580,
   3835390401, 4022224774, 264347078, 604807628,
   770255983, 1249150122, 1555081692, 1996064986,
   2554220882, 2821834349, 2952996808, 3210313671,
   3336571891, 3584528711, 113926993, 338241895,
   666307205, 773529912, 1294757372, 1396182291,
   1695183700, 1986661051, 2177026350, 2456956037,
   2730485921, 2820302411, 3259730800, 3345764771,
   3516065817, 3600352804, 4094571909, 275423344,
   430227734, 506948616, 659060556, 883997877,
   958139571, 1322822218, 1537002063, 1747873779,
   1955562222, 2024104815, 2227730452, 2361852424,
   2428436474, 2756734187, 3204031479, 3329325298]

/-- SHA-256 message padding: append `0x80`, zero bytes to 56 mod 64, and
the 64-bit big-endian bit length. -/
def shaPad (msg : List Nat) : List Nat :=
  let len := msg.length
  let zeros := (55 + 64 - len % 64) % 64
  let bitLen := len * 8
  msg ++ [0x80] ++ List.replicate zeros 0 ++
    ((List.range 8).map (fun i => bitLen / 2 ^ (8 * (7 - i)) % 256))

/-- Big-endian 32-bit words of a byte list. -/
def bytesToWords : List Nat → List Nat
  | a :: b :: c :: d :: rest => (((a * 256 + b) * 256 + c) * 256 + d) :: bytesToWords rest
  | _ => []

/-- The 64-entry message schedule from a 16-word block. -/
def shaSchedule (block : List Nat) : List Nat :=
  (List.range 64).foldl
    (fun ws i =>
      if i < 16 then ws ++ [block.getD i 0]
      else
        let w15 := ws.getD (i - 15) 0
        let w2 := ws.getD (i - 2) 0
        let s0 := (rotr 7 w15).xor ((rotr 18 w15).xor (w15 / 2 ^ 3))
        let s1 := (rotr 17 w2).xor ((rotr 19 w2).xor (w2 / 2 ^ 10))
        ws ++ [w32 (ws.getD (i - 16) 0 + s0 + ws.getD (i - 7) 0 + s1)])
    []

/-- One SHA-256 compression round. -/
def shaRound (st : List Nat) (kw : Nat × Nat) : List Nat :=
  match st with
  | [a, b, c, d, e, f, g, h] =>
      let S1 := (rotr 6 e).xor ((rotr 11 e).xor (rotr 25 e))
      let ch := (e.land f).xor ((w32 (4294967295 - e)).land g)
      let t1 := w32 (h + S1 + ch + kw.1 + kw.2)
      let S0 := (rotr 2 a).xor ((rotr 13 a).xor (rotr 22 a))
      let mj := (a.land b).xor ((a.land c).xor (b.land c))
      let t2 := w32 (S0 + mj)
      [w32 (t1 + t2), a, b, c, w32 (d + t1), e, f, g]
  | st => st

/-- Compress one 16-word block into the running hash. -/
def shaBlock (h : List Nat) (block : List Nat) : List Nat :=
  let out := (shaK.zip (shaSchedule block)).foldl shaRound h
  (h.zip out).map (fun p => w32 (p.1 + p.2))

/-- Split into 16-word blocks; `fuel` bounds the recursion depth and the
list length is always enough. -/
def chunks16Aux : Nat → List Nat → List (List Nat)
  | 0, _ => []
  | _ + 1, [] => []
  | fuel + 1, w :: ws => (w :: ws).take 16 :: chunks16Aux fuel ((w :: ws).drop 16)

/-- Split into 16-word blocks. -/
def chunks16 (l : List Nat) : List (List Nat) := chunks16Aux l.length l

/-- SHA-256 of a byte list: the 32-byte digest. -/
def sha256 (msg : List Nat) : List Nat :=
  let final := (chunks16 (bytesToWords (shaPad msg))).foldl shaBlock shaH0
  final.flatMap (fun wd => (List.range 4).map (fun i => wd / 2 ^ (8 * (3 - i)) % 256))

/-- `hashlib.sha256(s.encode("utf-8")).hexdigest()[:16]`, the 16-hex-char
name stem the scraper derives from a location. -/
def sha16 (s : String) : String := (hexOfBytes (sha256 (utf8Bytes s))).take 16

/-! ## `urllib.parse` (CPython 3.11): `urlsplit`, `urlparse`, `urljoin` -/

/-- The characters allowed in a URL scheme (`scheme_chars`). -/
def schemeChars : List Char :=
  "abcdefghijklmnopqrstuvwxyzABCDEFGHIJKLMNOPQRSTUVWXYZ0123456789+-.".data

/-- `uses_relative`. -/
def usesRelative : List String :=
  ["", "ftp", "http", "gopher", "nntp", "imap", "wais", "file", "https",
   "shttp", "mms", "prospero", "rtsp", "rtspu", "sftp", "svn", "svn+ssh",
   "ws", "wss"]

/-- `uses_netloc`. -/
def usesNetloc : List String :=
  ["", "ftp", "http", "gopher", "nntp", "telnet", "imap", "wais", "file",
   "mms", "https", "shttp", "snews", "prospero", "rtsp", "rtspu", "rsync",
   "svn", "svn+ssh", "sftp", "nfs", "git", "git+ssh", "ws", "wss"]

/-- `uses_params`. -/
def usesParams : List String :=
  ["", "ftp", "hdl", "prospero", "http", "imap", "https", "shttp", "rtsp",
   "rtspu", "sip", "sips", "mms", "sftp", "tel"]

/-- A WHATWG C0 control or space. -/
def c0OrSpace (c : Char) : Bool := c.toNat ≤ 32

/-- Keeps a character `_UNSAFE_URL_BYTES_TO_REMOVE` does not remove. -/
def keepByte (c : Char) : Bool := ¬ (c = '\t' ∨ c = '\r' ∨ c = '\n')

/-- The canonicalization `urlsplit` applies to its `url` argument:
left-strip WHATWG C0 controls and space, then remove every tab, CR and
LF. -/
def cleanUrl (s : String) : String :=
  String.mk ((s.data.dropWhile c0OrSpace).filter keepByte)

/-- The canonicalization applied to the default-scheme argument: strip
C0/space on both ends, then remove tab, CR and LF. -/
def cleanScheme (s : String) : String :=
  String.mk (((s.data.dropWhile c0OrSpace).reverse.dropWhile
      c0OrSpace).reverse.filter keepByte)

/-- Scheme detection of `urlsplit`: a colon at a positive index whose
prefix starts with an ASCII letter and lies in `scheme_chars` splits off
a lower-cased scheme. -/
def schemeSplit (url : String) : Option (String × String) :=
  match splitOnce ':' url with
  | none => none
  | some (pre, rest) =>
      if pre ≠ "" ∧ (pre.data.headD '0').isAlpha ∧ pre.data.all (· ∈ schemeChars) then
        some (strLower pre, rest)
      else none

/-- The five fields of `urllib.parse.SplitResult`. -/
structure SplitResult where
  scheme : String
  netloc : String
  path : String
  query : String
  fragment : String
deriving DecidableEq, Repr

/-- A character that may appear in a netloc (`_splitnetloc` stops at
`/`, `?`, `#`). -/
def netlocKeep (c : Char) : Bool := ¬ (c = '/' ∨ c = '?' ∨ c = '#')

/-- `_splitnetloc`: the netloc runs to the first `/`, `?` or `#`. -/
def splitNetloc (url : String) : String × String :=
  let nl := url.data.takeWhile netlocKeep
  (String.mk nl, String.mk (url.data.drop nl.length))

/-- Stage 1 of `urlsplit`: scheme detection, falling back to the cleaned
default scheme. -/
def schemeStage (defScheme u0 : String) : String × String :=
  match schemeSplit u0 with
  | some p => p
  | none => (cleanScheme defScheme, u0)

/-- Stage 2 of `urlsplit`: netloc removal after a leading `//`. -/
def netStage (u1 : String) : String × String :=
  if strStarts u1 "//" then splitNetloc (String.mk (u1.data.drop 2)) else ("", u1)

/-- Stage 3 of `urlsplit`: split off the fragment at the first `#`. -/
def fragStage (u2 : String) : String × String :=
  match splitOnce '#' u2 with
  | some p => p
  | none => (u2, "")

/-- Stage 4 of `urlsplit`: split off the query at the first `?`. -/
def queryStage (u3 : String) : String × String :=
  match splitOnce '?' u3 with
  | some p => p
  | none => (u3, "")

/-- `urlsplit` with `allow_fragments=True`, total version (the bracket
`ValueError` is tested separately by `urlsplitOK`). -/
def urlsplitT (url defScheme : String) : SplitResult :=
  let p1 := schemeStage defScheme (cleanUrl url)
  let p2 := netStage p1.2
  let p3 := fragStage p2.2
  let p4 := queryStage p3.1
  ⟨p1.1, p2.1, p4.1, p4.2, p3.2⟩

/-- `urlsplit` raises `ValueError "Invalid IPv6 URL"` exactly when one
bracket appears in the netloc without its partner. -/
def urlsplitOK (url defScheme : String) : Bool :=
  let nl := (urlsplitT url defScheme).netloc
  hasChar '[' nl = hasChar ']' nl

/-- `urlsplit` with the `ValueError` modelled as `none`. -/
def urlsplitE (url defScheme : String) : Option SplitResult :=
  if urlsplitOK url defScheme then some (urlsplitT url defScheme) else none

/-- The six fields of `urllib.parse.ParseResult`. -/
structure ParseResult where
  scheme : String
  netloc : String
  path : String
  params : String
  query : String
  fragment : String
deriving DecidableEq, Repr

/-- `_splitparams`: split path parameters off the last path segment. -/
def splitParams (url : String) : String × String :=
  if hasChar '/' url then
    let parts := strSplit url '/' 
    match splitOnce ';' (parts.getLastD "") with
    | none => (url, "")
    | some (a, b) => (String.intercalate "/" (parts.dropLast ++ [a]), b)
  else
    match splitOnce ';' url with
    | none => (url, "")
    | some (a, b) => (a, b)

/-- `urlparse` from a split result: separate params when the scheme uses
them. -/
def parseOfSplit (r : SplitResult) : ParseResult :=
  if usesParams.contains r.scheme ∧ hasChar ';' r.path then
    let pp := splitParams r.path
    ⟨r.scheme, r.netloc, pp.1, pp.2, r.query, r.fragment⟩
  else ⟨r.scheme, r.netloc, r.path, "", r.query, r.fragment⟩

/-- `urlparse`, total version. -/
def urlparseT (url defScheme : String) : ParseResult :=
  parseOfSplit (urlsplitT url defScheme)

/-- `urlparse` with the `ValueError` modelled as `none`. -/
def urlparseE (url defScheme : String) : Option ParseResult :=
  (urlsplitE url defScheme).map parseOfSplit

/-- `urlunsplit`. -/
def urlunsplit (scheme netloc url query fragment : String) : String :=
  let u1 := if netloc ≠ "" ∨ (url ≠ "" ∧ strStarts url "//") then
      "//" ++ netloc ++ (if url ≠ "" ∧ ¬ strStarts url "/" then "/" ++ url else url)
    else url
  let u2 := if scheme ≠ "" then scheme ++ ":" ++ u1 else u1
  let u3 := if query ≠ "" then u2 ++ "?" ++ query else u2
  if fragment ≠ "" then u3 ++ "#" ++ fragment else u3

/-- `urlunparse`. -/
def urlunparse (p : ParseResult) : String :=
  urlunsplit p.scheme p.netloc
    (if p.params ≠ "" then p.path ++ ";" ++ p.params else p.path) p.query p.fragment

/-- `segments[1:-1] = filter(None, segments[1:-1])` of `urljoin`: drop
empty segments strictly between the first and the last. -/
def filterMid : List String → List String
  | [] => []
  | [x] => [x]
  | x :: rest => x :: (rest.dropLast.filter (· ≠ "") ++ [rest.getLastD ""])

/-- The `'..'`/`'.'` resolution loop of `urljoin`. -/
def resolveSegs (segments : List String) : List String :=
  let r := segments.foldl
    (fun acc seg =>
      if seg = ".." then acc.dropLast
      else if seg = "." then acc
      else acc ++ [seg]) []
  if segments.getLastD "" = "." ∨ segments.getLastD "" = ".." then r ++ [""] else r

/-- `urllib.parse.urljoin`, with an uncaught `ValueError` from parsing
modelled as `none`. -/
def urljoin (base url : String) : Option String :=
  if base = "" then some url
  else if url = "" then some base
  else
    match urlparseE base "" with
    | none => none
    | some b =>
      match urlparseE url b.scheme with
      | none => none
      | some u =>
        if u.scheme ≠ b.scheme ∨ ¬ usesRelative.contains u.scheme then some url
        else if usesNetloc.contains u.scheme ∧ u.netloc ≠ "" then
          some (urlunparse ⟨u.scheme, u.netloc, u.path, u.params, u.query, u.fragment⟩)
        else
          let netloc := if usesNetloc.contains u.scheme then b.netloc else u.netloc
          if u.path = "" ∧ u.params = "" then
            some (urlunparse ⟨u.scheme, netloc, b.path, b.params,
              (if u.query = "" then b.query else u.query), u.fragment⟩)
          else
            let baseParts0 := strSplit b.path '/'
            let baseParts :=
              if baseParts0.getLastD "" ≠ "" then baseParts0.dropLast else baseParts0
            let segments :=
              if strStarts u.path "/" then strSplit u.path '/'
              else filterMid (baseParts ++ strSplit u.path '/')
            let joined := String.intercalate "/" (resolveSegs segments)
            some (urlunparse ⟨u.scheme, netloc, (if joined = "" then "/" else joined),
              u.params, u.query, u.fragment⟩)

/-! ## `os.path` (posixpath) and filename sanitization -/

/-- Not a path separator. -/
def notSlash (c : Char) : Bool := c ≠ '/'

/-- `os.path.basename`: everything after the last `/`. -/
def basename (p : String) : String :=
  String.mk ((p.data.reverse.takeWhile notSlash).reverse)

/-- Not a dot. -/
def notDot (c : Char) : Bool := c ≠ '.'

/-- `os.path.splitext`: split at the last dot of the final path
component, unless every character before that dot (within the component)
is itself a dot. -/
def splitext (p : String) : String × String :=
  let name := (basename p).data
  let dir := p.data.take (p.data.length - name.length)
  let afterRev := name.reverse.takeWhile notDot
  if afterRev.length = name.length then (p, "")
  else if (name.take (name.length - afterRev.length - 1)).any notDot then
    (String.mk (dir ++ name.take (name.length - afterRev.length - 1)),
      String.mk ('.' :: afterRev.reverse))
  else (p, "")

/-- `os.path.join` for two arguments (posixpath). -/
def osJoin (a b : String) : String :=
  if strStarts b "/" then b
  else if a = "" ∨ strEnds a "/" then a ++ b
  else a ++ "/" ++ b

/-- A character the scraper keeps in a filename: the class
`[A-Za-z0-9._-]` of its sanitizing substitution. -/
def safeChar (c : Char) : Bool :=
  c.isAlphanum ∨ c = '.' ∨ c = '_' ∨ c = '-'

/-- `re.sub(r'[^A-Za-z0-9._-]', '_', s)`. -/
def sanitize (s : String) : String :=
  String.mk (s.data.map (fun c => if safeChar c then c else '_'))

/-! ## `guess_extension_from_url_or_type` (scrape_media.py 243–257)

`mimetypes.guess_extension` consults an environment-dependent table; it
enters the model as the oracle `mimeExt`.  A `ValueError` escaping from
`urlparse` (uncaught in the source) is `none`. -/

/-- The body of `guess_extension_from_url_or_type` after the URL has been
parsed. -/
def guessExtCore (mimeExt : String → Option String) (parsed : ParseResult)
    (contentType : Option String) : String :=
  let base := basename parsed.path
  let urlExt := if hasChar '.' base ∧ (splitext base).2 ≠ "" then (splitext base).2 else ""
  if urlExt ≠ "" then urlExt
  else
    match contentType with
    | some ct =>
        if ct ≠ "" then
          match mimeExt (pyStrip ((strSplit ct ';').headD "")) with
          | some e => if e ≠ "" then e else ""
          | none => ""
        else ""
    | none => ""

/-- `guess_extension_from_url_or_type(url, content_type)`. -/
def guess_extension_from_url_or_type (mimeExt : String → Option String)
    (url : String) (contentType : Option String) : Option String :=
  (urlparseE url "").map (fun parsed => guessExtCore mimeExt parsed contentType)

/-! ## The `url(...)` pattern (`re.findall(r'url\((?:["\x27]?)(.*?)(?:["\x27]?)\)', text)`) -/

/-- A CSS quote character. -/
def isQuote (c : Char) : Bool := c = '"' ∨ c.toNat = 39

/-- Scan for the lazy close of the `url(...)` pattern: the capture grows
until an optional quote followed by `)` (tried greedily, quote first)
matches.  Returns the captured characters and the characters after the
match. -/
def lazyClose (acc : List Char) : List Char → Option (List Char × List Char)
  | [] => none
  | c :: rest =>
      if isQuote c then
        match rest with
        | ')' :: tail => some (acc.reverse, tail)
        | _ => lazyClose (c :: acc) rest
      else if c = ')' then some (acc.reverse, rest)
      else lazyClose (c :: acc) rest

/-- Match the regex immediately after a literal `url(`: an optional
opening quote, the lazy capture, the lazy close. -/
def urlMatchAfter (s : List Char) : Option (String × List Char) :=
  let body := match s with
    | c :: rest => if isQuote c then rest else s
    | [] => s
  (lazyClose [] body).map (fun p => (String.mk p.1, p.2))

/-- `re.findall` for the `url(...)` pattern: left-to-right,
non-overlapping matches, each contributing its capture group. -/
def findallUrl (fuel : Nat) (s : List Char) : List String :=
  match fuel with
  | 0 => []
  | fuel + 1 =>
      match s with
      | [] => []
      | c :: rest =>
          if ['u', 'r', 'l', '('].isPrefixOf (c :: rest) then
            match urlMatchAfter (rest.drop 3) with
            | some (cap, after) => cap :: findallUrl fuel after
            | none => findallUrl fuel rest
          else findallUrl fuel rest

/-- `re.findall(urlPattern, text)` as the source calls it. -/
def findallUrlS (text : String) : List String :=
  findallUrl text.data.length text.data

/-! ## `save_data_uri` (scrape_media.py 228–240)

The filesystem write is factored out (the loop model performs it); this
is the decoding part: which bytes get written, or which exception is
caught.  The error strings stand in for `str(e)`. -/

/-- The decoding performed by `save_data_uri`: split at the first comma
(raising if there is none), then base64-decode if the header contains
`";base64"`, else take the UTF-8 bytes of the payload verbatim. -/
def save_data_uri (dataUri : String) : Except String (List Nat) :=
  match splitOnce ',' dataUri with
  | none => .error "not enough values to unpack"
  | some (header, payload) =>
      if strHasSub ";base64" header then
        match b64decode payload with
        | some raw => .ok raw
        | none => .error "invalid base64"
      else .ok (utf8Bytes payload)

/-! ## The rendered page and `collect_media_urls` (scrape_media.py 79–206)

The Playwright page handle is modelled by the attribute values its
queries return: one list per selector, one `Option String` per attribute
read (`none` = attribute absent).  A raised exception inside a
`try`/`except` block skips exactly the remainder of that block, keeping
the `urls.add` calls already executed — the model mirrors that
per-block abort. -/

/-- Python truthiness of an attribute value: present and non-empty. -/
def truthy : Option String → Option String
  | some s => if s = "" then none else some s
  | none => none

/-- An `<img>` element: its `src` and `srcset` attributes. -/
structure ImgEl where
  src : Option String
  srcset : Option String

/-- A `video`/`audio`/`source`/`picture`/`iframe` element: its `src`,
`data-src` and `data-srcset` attributes. -/
structure MediaEl where
  src : Option String
  dataSrc : Option String
  dataSrcset : Option String

/-- A `link[rel]` element: its `rel` and `href` attributes. -/
structure LinkEl where
  rel : Option String
  href : Option String

/-- The rendered page as the collector queries it, in source order:
`img` elements, media elements, `link[rel]` elements, `og:image` meta
contents, computed `background-image` values, `link[rel='stylesheet']`
hrefs, and `<style>` block texts. -/
structure Page where
  imgs : List ImgEl
  mediaEls : List MediaEl
  relLinks : List LinkEl
  ogImageContents : List (Option String)
  backgroundImages : List String
  styleSheetLinks : List (Option String)
  styleTexts : List String

/-- The `srcset` loop of the collector: each comma-separated part is
stripped and whitespace-split, `[0]` raising `IndexError` on an empty
part (which aborts the element's remaining parts). -/
def srcsetFold (base : String) (st : List String) : List String → List String
  | [] => st
  | part :: rest =>
      match wsTokens (pyStrip part) with
      | [] => st
      | u :: _ =>
          if u ≠ "" then
            match urljoin base u with
            | none => st
            | some j => srcsetFold base (addUniq st j) rest
          else srcsetFold base st rest

/-- Processing of one `<img>`: add the joined `src`, then walk the
`srcset`; any exception aborts the rest of this element only. -/
def processImg (base : String) (st : List String) (el : ImgEl) : List String :=
  let step1 : Option (List String) :=
    match truthy el.src with
    | some s => (urljoin base s).map (addUniq st)
    | none => some st
  match step1 with
  | none => st
  | some st1 =>
      match truthy el.srcset with
      | none => st1
      | some ss => srcsetFold base st1 (strSplit ss ',')

/-- Processing of one media element: add the joined `src`, then the
first truthy of `data-src`/`data-srcset`. -/
def processMediaEl (base : String) (st : List String) (el : MediaEl) : List String :=
  let step1 : Option (List String) :=
    match truthy el.src with
    | some s => (urljoin base s).map (addUniq st)
    | none => some st
  match step1 with
  | none => st
  | some st1 =>
      let src2 := match truthy el.dataSrc with
        | some s => some s
        | none => truthy el.dataSrcset
      match src2 with
      | none => st1
      | some s2 =>
          match urljoin base s2 with
          | none => st1
          | some j => addUniq st1 j

/-- Processing of one `link[rel]` element: when the lower-cased `rel`
contains `icon` or `image`, add the joined `href`. -/
def processLink (base : String) (st : List String) (el : LinkEl) : List String :=
  let rel := strLower (el.rel.getD "")
  if strHasSub "icon" rel ∨ strHasSub "image" rel then
    match truthy el.href with
    | some h =>
        match urljoin base h with
        | none => st
        | some j => addUniq st j
    | none => st
  else st

/-- Processing of one `og:image` meta element: add the joined `content`. -/
def processOg (base : String) (st : List String) (content : Option String) : List String :=
  match truthy content with
  | some c =>
      match urljoin base c with
      | none => st
      | some j => addUniq st j
  | none => st

/-- Add the join of every non-empty `url(...)` capture; the `Bool` marks
an exception from `urljoin` (the enclosing `try` then aborts, keeping the
additions made so far). -/
def addAllJoins (base : String) (st : List String) : List String → List String × Bool
  | [] => (st, false)
  | m :: rest =>
      if m ≠ "" then
        match urljoin base m with
        | none => (st, true)
        | some j => addAllJoins base (addUniq st j) rest
      else addAllJoins base st rest

/-- The computed `background-image` section: one `try` wraps the whole
loop, so an exception aborts every remaining item. -/
def bgFold (base : String) (st : List String) : List String → List String
  | [] => st
  | item :: rest =>
      let p := addAllJoins base st (findallUrlS item)
      if p.2 then p.1 else bgFold base p.1 rest

/-- The inline `<style>` section: one `try` per node, so an exception
aborts only that node's remaining matches. -/
def styleFold (base : String) (st : List String) : List String → List String
  | [] => st
  | txt :: rest => styleFold base (addAllJoins base st (findallUrlS txt)).1 rest

/-- The `link[rel='stylesheet']` section: each truthy `href` is joined,
appended to `css_hrefs`, and added to the asset set. -/
def processSheets (base : String) (st : List String) (cs : List String) :
    List (Option String) → List String × List String
  | [] => (st, cs)
  | h :: rest =>
      match truthy h with
      | none => processSheets base st cs rest
      | some href =>
          match urljoin base href with
          | none => processSheets base st cs rest
          | some habs => processSheets base (addUniq st habs) (cs ++ [habs]) rest

/-- `collect_media_urls(page, base_url)`: the deduplicated candidate set
and the stylesheet list, built category by category in source order. -/
def collect_media_urls (base : String) (page : Page) : List String × List String :=
  let st1 := page.imgs.foldl (processImg base) []
  let st2 := page.mediaEls.foldl (processMediaEl base) st1
  let st3 := page.relLinks.foldl (processLink base) st2
  let st4 := page.ogImageContents.foldl (processOg base) st3
  let st5 := bgFold base st4 page.backgroundImages
  let p := processSheets base st5 [] page.styleSheetLinks
  let st6 := styleFold base p.1 page.styleTexts
  (st6, p.2)

/-! ## The stylesheet scan (scrape_media.py 320–335)

`sess.get` is the oracle `fetch` (`none` = raised exception, otherwise
status code and body text). -/

/-- The CSS loop: fetch each stylesheet, and on status 200 add the join
of every `url(...)` capture against the stylesheet's own location; any
exception moves on to the next stylesheet. -/
def cssStep (fetch : String → Option (Nat × String)) (startUrl : String)
    (st : List String) : List String → List String
  | [] => st
  | cssUrl :: rest =>
      match urljoin startUrl cssUrl with
      | none => cssStep fetch startUrl st rest
      | some cssAbs =>
          match fetch cssAbs with
          | none => cssStep fetch startUrl st rest
          | some (status, text) =>
              if status = 200 then
                cssStep fetch startUrl (addAllJoins cssAbs st (findallUrlS text)).1 rest
              else cssStep fetch startUrl st rest

/-! ## The acquisition loop (scrape_media.py 337–411)

Network and filesystem effects enter as oracles keyed by the reference
being processed; the set of existing file paths is explicit state. -/

/-- Outcome of `download_with_requests` for one reference: full success,
an exception before the destination file was opened, or an exception
after it was created (leaving a partial file). -/
inductive DlRes where
  | success : DlRes
  | failNoFile : String → DlRes
  | failPartial : String → DlRes
deriving DecidableEq, Repr

/-- Oracles of the acquisition loop: the HEAD probe result (`none` = the
probe raised), the download outcome, the outcome of the data-URI file
write (`none` = wrote fine, `some e` = raised after creating the file),
and the `mimetypes` table. -/
structure AcqEnv where
  startUrl : String
  mediaDir : String
  headCT : String → Option String
  dl : String → DlRes
  dataWrite : String → Option String
  mimeExt : String → Option String

/-- Loop state: the file paths existing on disk and the two manifest
maps, as association lists in insertion order. -/
structure AcqState where
  fs : List String
  downloaded : List (String × String)
  errors : List (String × String)
deriving DecidableEq, Repr

/-- Keys of an association list. -/
def keys (l : List (String × String)) : List String := l.map (·.1)

/-- Record a path as existing. -/
def addFile (fs : List String) (p : String) : List String :=
  if p ∈ fs then fs else p :: fs

/-- The collision loop (lines 394–399): while the destination exists,
append `_counter` before the extension.  The source's `while` always
terminates on a finite filesystem; `fuel = fs.length + 1` is enough to
reach a free name (proved below). -/
def bumpName (fs : List String) (bnoext ext dest : String) (counter fuel : Nat) : String :=
  match fuel with
  | 0 => dest
  | fuel + 1 =>
      if dest ∈ fs then
        bumpName fs bnoext ext (bnoext ++ "_" ++ natDec counter ++ ext) (counter + 1) fuel
      else dest

/-- The filename derivation for a network reference (lines 378–390):
infer an extension, take the sanitized basename of the parsed path when
it contains a dot (appending the inferred extension when the sanitized
name does not already end with it), else a 16-hex-character hash of the
location plus the inferred extension, defaulting to `.bin`.  `none` is
the uncaught `ValueError` from `urlparse`. -/
def deriveFname (mimeExt : String → Option String) (absUrl : String)
    (contentType : Option String) : Option String :=
  match urlparseE absUrl "" with
  | none => none
  | some parsed =>
      let ext := guessExtCore mimeExt parsed contentType
      let nameBase := basename parsed.path
      some (if nameBase = "" ∨ ¬ hasChar '.' nameBase then
          sha16 absUrl ++ (if ext = "" then ".bin" else ext)
        else
          let safe := sanitize nameBase
          if ext ≠ "" ∧ ¬ strEnds safe ext then safe ++ ext else safe)

/-- The data-URI content-type extraction (lines 347–350); `none` is the
uncaught `IndexError` when the header has a `;` and a `:` but no `:`
before the first `;` (unreachable for a string starting `data:`). -/
def dataContentType (murl : String) : Option (Option String) :=
  let header := match splitOnce ',' murl with
    | some p => p.1
    | none => murl
  if hasChar ';' header then
    if hasChar ':' header then
      let beforeSemi := match splitOnce ';' header with
        | some p => p.1
        | none => header
      match splitOnce ':' beforeSemi with
      | some p => some (some p.2)
      | none => none
    else some none
  else some none

/-- Destination path of a data URI (lines 351–355): hash of the
reference plus the guessed extension, defaulting to `.bin` — written with
no existence check. -/
def dataDest (env : AcqEnv) (murl ext0 : String) : String :=
  osJoin env.mediaDir (sha16 murl ++ (if ext0 = "" then ".bin" else ext0))

/-- The data-URI arm of the loop body (lines 345–363). -/
def processData (env : AcqEnv) (st : AcqState) (murl : String) : Option AcqState :=
  match dataContentType murl with
  | none => none
  | some ct =>
      match guess_extension_from_url_or_type env.mimeExt murl ct with
      | none => none
      | some ext0 =>
          match save_data_uri murl with
          | .ok _ =>
              match env.dataWrite murl with
              | none => some ⟨addFile st.fs (dataDest env murl ext0),
                  st.downloaded ++ [(murl, dataDest env murl ext0)], st.errors⟩
              | some e => some ⟨addFile st.fs (dataDest env murl ext0),
                  st.downloaded, st.errors ++ [(murl, e)]⟩
          | .error e => some { st with errors := st.errors ++ [(murl, e)] }

/-- `abs_url = urljoin(start_url, murl)` with the exception caught into
`abs_url = murl` (lines 366–369). -/
def netAbs (env : AcqEnv) (murl : String) : String :=
  match urljoin env.startUrl murl with
  | some a => a
  | none => murl

/-- The destination a network reference claims: the derived name under
the media directory, collision-bumped against the existing files. -/
def netDest (env : AcqEnv) (fs : List String) (fname : String) : String :=
  bumpName fs (splitext (osJoin env.mediaDir fname)).1
    (splitext (osJoin env.mediaDir fname)).2 (osJoin env.mediaDir fname) 1 (fs.length + 1)

/-- The network arm of the loop body (lines 365–408). -/
def processNet (env : AcqEnv) (st : AcqState) (murl : String) : Option AcqState :=
  match deriveFname env.mimeExt (netAbs env murl) (env.headCT murl) with
  | none => none
  | some fname =>
      match env.dl murl with
      | .success => some ⟨addFile st.fs (netDest env st.fs fname),
          st.downloaded ++ [(murl, netDest env st.fs fname)], st.errors⟩
      | .failNoFile e => some { st with errors := st.errors ++ [(murl, e)] }
      | .failPartial e => some ⟨addFile st.fs (netDest env st.fs fname),
          st.downloaded, st.errors ++ [(murl, e)]⟩

/-- One iteration of the download loop for reference `murl`; `none` is an
uncaught exception aborting the whole batch. -/
def processOne (env : AcqEnv) (st : AcqState) (murl : String) : Option AcqState :=
  if murl = "" then some st
  else if murl ∈ keys st.downloaded ∨ murl ∈ keys st.errors then some st
  else if strStarts murl "data:" then processData env st murl
  else processNet env st murl

/-- The download loop over the sorted reference list. -/
def runLoop (env : AcqEnv) : List String → AcqState → Option AcqState
  | [], st => some st
  | m :: rest, st => (processOne env st m).bind (runLoop env rest)

/-- Whether processing reference `r` succeeds on its own account: a data
URI succeeds iff it decodes and its write does not raise, a network
reference iff its download returns success.  This depends only on `r`
and `r`'s own oracles, never on other references. -/
def refOk (env : AcqEnv) (r : String) : Bool :=
  if strStarts r "data:" then
    match save_data_uri r with
    | .ok _ => (env.dataWrite r).isNone
    | .error _ => false
  else decide (env.dl r = DlRes.success)

/-! ## The whole pipeline of `parse_single_page_and_media` -/

/-- Inputs of one page-visit invocation: the page as rendered, the
oracles, and the initial filesystem. -/
structure PipeEnv where
  startUrl : String
  mediaDir : String
  page : Page
  cssFetch : String → Option (Nat × String)
  headCT : String → Option String
  dl : String → DlRes
  dataWrite : String → Option String
  mimeExt : String → Option String
  fs0 : List String

/-- The collected reference set after the stylesheet scan has fed back
into it (lines 293 and 320–335). -/
def collectedSet (env : PipeEnv) : List String :=
  let p := collect_media_urls env.startUrl env.page
  cssStep env.cssFetch env.startUrl p.1 p.2

/-- The acquisition-stage view of the pipeline inputs. -/
def acqEnvOf (env : PipeEnv) : AcqEnv :=
  ⟨env.startUrl, env.mediaDir, env.headCT, env.dl, env.dataWrite, env.mimeExt⟩

/-- Collect, scan stylesheets, then run the download loop over the
sorted candidate set (line 338 `for murl in sorted(media_urls)`). -/
def pipeline (env : PipeEnv) : Option AcqState :=
  runLoop (acqEnvOf env) (pySort (collectedSet env)) ⟨env.fs0, [], []⟩

/-! ## The session bridge (scrape_media.py 296–314) -/

/-- A cookie as `BrowserContext.cookies()` reports it. -/
structure PwCookie where
  name : String
  value : String
  domain : Option String
  path : Option String
deriving DecidableEq, Repr

/-- The requests session the bridge builds: its `User-Agent` header, its
cookie jar, and any warnings recorded while building it. -/
structure ReqSession where
  userAgent : String
  jar : List PwCookie
  warnings : List String
deriving DecidableEq, Repr

/-- The user-agent string passed to `browser.new_context` (lines 272 and
299–300). -/
def contextUserAgent : String :=
  "Mozilla/5.0 (Windows NT 10.0; Win64; x64) AppleWebKit/537.36 (KHTML, like Gecko) Chrome/120.0.0.0 Safari/537.36"

set_option linter.unusedVariables false in
/-- The session bridge, lines 296–314.  `navigatedCookies` is the cookie
set the *navigated* context would report.  The source, however, rebinds
`context` to `browser.new_context(user_agent=user_agent)` at line 300 —
a fresh context, which by Playwright semantics holds no cookies — and
then reads `context.cookies()` from that fresh context, so the
jar-filling loop ranges over the empty list whatever the navigated
context holds.  Each cookie seen would be passed to `jar.set` with its
domain and path as reported, `None` included; no warning is ever
recorded on any path. -/
def sessionBridge (navigatedCookies : List PwCookie) : ReqSession :=
  let userAgent := contextUserAgent
  let freshContextCookies : List PwCookie := []
  let jar := freshContextCookies.foldl (fun j c => j ++ [c]) []
  ⟨userAgent, jar, []⟩

/-! ## Specification-side definitions

These follow the words of the specification (not the source); the
refinement claims compare them with the source-derived definitions
above. -/

/-- Value of a hex digit. -/
def hexVal (c : Char) : Option Nat :=
  if '0' ≤ c ∧ c ≤ '9' then some (c.toNat - 48)
  else if 'a' ≤ c ∧ c ≤ 'f' then some (c.toNat - 87)
  else if 'A' ≤ c ∧ c ≤ 'F' then some (c.toNat - 55)
  else none

/-- Modelled from the spec: "treat as percent-decoded text" — the bytes
of URL-unquoting the payload, each `%XX` hex escape becoming the byte
`XX` and every other character contributing its UTF-8 bytes. -/
def percentDecodeAux : Nat → List Char → List Nat
  | 0, _ => []
  | _ + 1, [] => []
  | fuel + 1, '%' :: a :: b :: rest =>
      (match hexVal a, hexVal b with
       | some x, some y => (16 * x + y) :: percentDecodeAux fuel rest
       | _, _ => utf8Char '%' ++ percentDecodeAux fuel (a :: b :: rest))
  | fuel + 1, c :: rest => utf8Char c ++ percentDecodeAux fuel rest

/-- See `percentDecodeAux`; the fuel `l.length` is always enough. -/
def percentDecodeBytes (l : List Char) : List Nat := percentDecodeAux l.length l

/-- The filename derivation as claim C9 words it: when the last path
segment contains an extension, that segment with every character outside
`A-Za-z0-9._-` substituted by `_` — nothing more; otherwise a hash of
the absolute location plus the inferred extension, defaulting to a
generic binary extension. -/
def claimedFnameC9 (mimeExt : String → Option String) (absUrl : String)
    (contentType : Option String) : Option String :=
  match urlparseE absUrl "" with
  | none => none
  | some parsed =>
      let seg := basename parsed.path
      some (if seg ≠ "" ∧ hasChar '.' seg then sanitize seg
        else
          let ext := guessExtCore mimeExt parsed contentType
          sha16 absUrl ++ (if ext = "" then ".bin" else ext))

/-- The start URL detects a scheme that lies in `uses_relative` — true of
every ordinary `http(s)` page address.  Several theorems assume it. -/
def startOK (start : String) : Bool :=
  match schemeSplit (cleanUrl start) with
  | some (s, _) => usesRelative.contains s
  | none => false

/-! ## Lemmas: basic helpers -/

theorem strAppend_left_cancel {a b c : String} (h : a ++ b = a ++ c) : b = c := by
  apply String.ext
  have h2 : a.data ++ b.data = a.data ++ c.data := by
    have := congrArg String.data h
    simpa [String.data_append] using this
  exact List.append_cancel_left h2

theorem strAppend_right_cancel {a b c : String} (h : a ++ c = b ++ c) : a = b := by
  apply String.ext
  have h2 : a.data ++ c.data = b.data ++ c.data := by
    have := congrArg String.data h
    simpa [String.data_append] using this
  exact List.append_cancel_right h2

theorem mem_addUniq {l : List String} {s x : String} :
    x ∈ addUniq l s ↔ x ∈ l ∨ x = s := by
  by_cases h : s ∈ l <;> simp [addUniq, h] <;> aesop

theorem nodup_addUniq {l : List String} {s : String} (h : l.Nodup) :
    (addUniq l s).Nodup := by
  by_cases hs : s ∈ l <;> simp [addUniq, hs, List.nodup_append, h]

theorem mem_insertSorted {x a : String} {l : List String} :
    x ∈ insertSorted a l ↔ x = a ∨ x ∈ l := by
  induction l with
  | nil => simp [insertSorted]
  | cons y ys ih => by_cases h : strLe a y <;> simp [insertSorted, h, ih] <;> tauto

theorem mem_pySort {x : String} {l : List String} : x ∈ pySort l ↔ x ∈ l := by
  induction l with
  | nil => simp [pySort]
  | cons y ys ih => simp [pySort, mem_insertSorted, ih]

/-! ## Lemmas: decimal rendering is injective -/

/-- Decimal parsing, the inverse used to prove `natDec` injective. -/
def decParse (l : List Char) : Nat := l.foldl (fun a c => a * 10 + (c.toNat - 48)) 0

theorem decParse_append (l : List Char) (c : Char) :
    decParse (l ++ [c]) = decParse l * 10 + (c.toNat - 48) := by
  simp [decParse, List.foldl_append]

theorem toNat_decDigit {k : Nat} (h : k < 10) : (decDigit k).toNat = 48 + k := by
  interval_cases k <;> decide

theorem decParse_decDigitsAux : ∀ fuel n, n < fuel → decParse (decDigitsAux fuel n) = n := by
  intro fuel
  induction fuel with
  | zero => intro n h; omega
  | succ fuel ih =>
      intro n h
      rw [decDigitsAux]
      by_cases h10 : n < 10
      · rw [if_pos h10]
        simp [decParse, toNat_decDigit h10]
      · rw [if_neg h10, decParse_append]
        have hdiv := Nat.div_lt_self (show 0 < n by omega) (show 1 < 10 by omega)
        rw [ih (n / 10) (by omega), toNat_decDigit (Nat.mod_lt n (by omega))]
        omega

theorem decParse_decDigits (n : Nat) : decParse (decDigits n) = n :=
  decParse_decDigitsAux (n + 1) n (by omega)

theorem natDec_inj {m n : Nat} (h : natDec m = natDec n) : m = n := by
  have hd : decDigits m = decDigits n := congrArg String.data h
  calc m = decParse (decDigits m) := (decParse_decDigits m).symm
    _ = decParse (decDigits n) := by rw [hd]
    _ = n := decParse_decDigits n

theorem decDigits_ne_nil (n : Nat) : decDigits n ≠ [] := by
  unfold decDigits decDigitsAux
  split <;> simp

theorem natDec_length_pos (n : Nat) : 0 < (natDec n).length := by
  have := decDigits_ne_nil n
  simp only [natDec, String.length]
  exact List.length_pos.mpr this

/-! ## Lemmas: `splitext` reassembles -/

theorem dropWhile_head_not {p : Char → Bool} {l : List Char} {c : Char} {r : List Char}
    (h : l.dropWhile p = c :: r) : p c = false := by
  induction l with
  | nil => simp at h
  | cons a t ih =>
      by_cases hp : p a
      · exact ih (by simpa [List.dropWhile, hp] using h)
      · rw [List.dropWhile_cons_of_neg (by simpa using hp)] at h
        cases h; simpa using hp

theorem basename_suffix (p : String) :
    p.data = p.data.take (p.data.length - (basename p).data.length) ++ (basename p).data := by
  have hdec := List.takeWhile_append_dropWhile (p := notSlash) (l := p.data.reverse)
  set tw := p.data.reverse.takeWhile notSlash with htw
  set dw := p.data.reverse.dropWhile notSlash with hdw
  have hrev : p.data = dw.reverse ++ tw.reverse := by
    have := congrArg List.reverse hdec
    simpa [List.reverse_append] using this.symm
  have hname : (basename p).data = tw.reverse := rfl
  rw [hname, hrev]
  have hlen : (dw.reverse ++ tw.reverse).length - tw.reverse.length = dw.reverse.length := by
    simp
  rw [hlen, List.take_left]

theorem splitext_append (p : String) : (splitext p).1 ++ (splitext p).2 = p := by
  unfold splitext
  set name := (basename p).data with hname
  set dir := p.data.take (p.data.length - name.length) with hdir
  have hp : p.data = dir ++ name := basename_suffix p
  set afterRev := name.reverse.takeWhile notDot with hAfter
  by_cases hlen : afterRev.length = name.length
  · rw [if_pos hlen]
    apply String.ext; simp [String.data_append]
  · rw [if_neg hlen]
    have hdec := List.takeWhile_append_dropWhile (p := notDot) (l := name.reverse)
    set dw := name.reverse.dropWhile notDot with hdw
    have hdwne : dw ≠ [] := by
      intro hnil
      apply hlen
      have h5 : afterRev = name.reverse := by
        rw [hAfter]
        have h6 := hdec
        rw [hnil, List.append_nil] at h6
        exact h6
      rw [h5, List.length_reverse]
    obtain ⟨c, r, hcr⟩ := List.exists_cons_of_ne_nil hdwne
    have hcdot : c = '.' := by
      have := dropWhile_head_not (hdw ▸ hcr)
      simpa [notDot] using this
    have hnamedec : name = r.reverse ++ '.' :: afterRev.reverse := by
      have h6 := congrArg List.reverse hdec
      simp only [List.reverse_append, List.reverse_reverse] at h6
      rw [← h6, hcr, hcdot]
      simp
    have hstem : name.take (name.length - afterRev.length - 1) = r.reverse := by
      have hlen2 : name.length = r.reverse.length + 1 + afterRev.length := by
        conv_lhs => rw [hnamedec]
        simp; omega
      rw [hlen2]
      have h7 : r.reverse.length + 1 + afterRev.length - afterRev.length - 1
          = r.reverse.length := by omega
      rw [h7]
      conv_lhs => rw [hnamedec]
      rw [List.take_append_of_le_length (by omega)]
      simp
    rw [← hAfter]
    rw [hstem]
    by_cases hany : r.reverse.any notDot
    · rw [if_pos hany]
      apply String.ext
      simp only [String.data_append]
      show dir ++ r.reverse ++ ('.' :: afterRev.reverse) = p.data
      rw [hp]
      conv_rhs => rw [hnamedec]
      simp
    · rw [if_neg hany]
      apply String.ext; simp [String.data_append]

/-! ## Lemmas: the collision loop reaches a fresh name -/

/-- The names the collision loop tries, in order. -/
def candList (b e : String) : String → Nat → Nat → List String
  | dest, _, 0 => [dest]
  | dest, counter, f + 1 => dest :: candList b e (b ++ "_" ++ natDec counter ++ e) (counter + 1) f

theorem bumpName_mem_or (fs : List String) (b e : String) :
    ∀ f counter dest, bumpName fs b e dest counter f ∉ fs ∨
      ∀ x ∈ candList b e dest counter f, x ∈ fs := by
  intro f
  induction f with
  | zero =>
      intro counter dest
      by_cases h : dest ∈ fs
      · right; intro x hx
        have : x = dest := by simpa [candList] using hx
        simpa [this]
      · left; simpa [bumpName]
  | succ f ih =>
      intro counter dest
      by_cases h : dest ∈ fs
      · rcases ih (counter + 1) (b ++ "_" ++ natDec counter ++ e) with hl | hr
        · left; simpa [bumpName, h] using hl
        · right; intro x hx
          rcases (by simpa [candList] using hx :
              x = dest ∨ x ∈ candList b e (b ++ "_" ++ natDec counter ++ e) (counter + 1) f)
            with rfl | hx2
          · exact h
          · exact hr x hx2
      · left; simpa [bumpName, h]

theorem candList_eq (b e : String) :
    ∀ f counter dest, candList b e dest counter f =
      dest :: (List.range f).map (fun i => b ++ "_" ++ natDec (counter + i) ++ e) := by
  intro f
  induction f with
  | zero => intro counter dest; simp [candList]
  | succ f ih =>
      intro counter dest
      rw [candList, ih, List.range_succ_eq_map]
      simp only [List.map_cons, List.map_map, Nat.add_zero]
      congr 1
      congr 1
      apply List.map_congr_left
      intro i _
      simp only [Function.comp_apply]
      have h9 : counter + 1 + i = counter + (i + 1) := by omega
      rw [h9]

theorem bumped_ne (b e : String) (i j : Nat) (h : i ≠ j) :
    b ++ "_" ++ natDec i ++ e ≠ b ++ "_" ++ natDec j ++ e := by
  intro heq
  exact h (natDec_inj (strAppend_left_cancel (strAppend_right_cancel heq)))

theorem base_ne_bumped (b e : String) (i : Nat) :
    b ++ e ≠ b ++ "_" ++ natDec i ++ e := by
  intro heq
  have h2 : e = "_" ++ (natDec i ++ e) := by
    apply strAppend_left_cancel (a := b)
    simpa [String.append_assoc] using heq
  have hpos := natDec_length_pos i
  have h4 : e.length = "_".length + ((natDec i).length + e.length) := by
    have h5 := congrArg String.length h2
    simpa using h5
  have h6 : ("_" : String).length = 1 := rfl
  omega

theorem candList_nodup (b e : String) (counter f : Nat) :
    (candList b e (b ++ e) counter f).Nodup := by
  rw [candList_eq]
  refine List.Nodup.cons ?_ ?_
  · intro hmem
    rcases List.mem_map.mp hmem with ⟨i, _, hival⟩
    exact base_ne_bumped b e (counter + i) hival.symm
  · refine List.Nodup.map ?_ (List.nodup_range f)
    intro i j hij
    by_contra hne
    exact bumped_ne b e (counter + i) (counter + j) (by omega) hij

theorem nodup_subset_length {l s : List String} (hn : l.Nodup) (hsub : ∀ x ∈ l, x ∈ s) :
    l.length ≤ s.length := by
  calc l.length = l.toFinset.card := (List.toFinset_card_of_nodup hn).symm
    _ ≤ s.toFinset.card := Finset.card_le_card (fun x hx => by
        simp only [List.mem_toFinset] at hx ⊢; exact hsub x hx)
    _ ≤ s.length := List.toFinset_card_le s

theorem candList_length (b e : String) :
    ∀ f counter dest, (candList b e dest counter f).length = f + 1 := by
  intro f
  induction f with
  | zero => intro counter dest; simp [candList]
  | succ f ih => intro counter dest; simp [candList, ih]

/-- With `fs.length + 1` units of fuel, the collision loop always lands
on a name that does not yet exist. -/
theorem bumpName_fresh (fs : List String) (b e : String) :
    bumpName fs b e (b ++ e) 1 (fs.length + 1) ∉ fs := by
  rcases bumpName_mem_or fs b e (fs.length + 1) 1 (b ++ e) with h | h
  · exact h
  · exfalso
    have hn := candList_nodup b e 1 (fs.length + 1)
    have hlen := candList_length b e (fs.length + 1) 1 (b ++ e)
    have := nodup_subset_length hn h
    omega

/-! ## Lemmas: one loop iteration, characterized -/

theorem keys_append_single {l : List (String × String)} {m d : String} :
    keys (l ++ [(m, d)]) = keys l ++ [m] := by simp [keys]

theorem mem_addFile {fs : List String} {p x : String} :
    x ∈ addFile fs p ↔ x = p ∨ x ∈ fs := by
  by_cases h : p ∈ fs <;> simp [addFile, h] <;> aesop

/-- A network destination never coincides with an existing file. -/
theorem netDest_fresh (env : AcqEnv) (fs : List String) (fname : String) :
    netDest env fs fname ∉ fs := by
  have hb := bumpName_fresh fs (splitext (osJoin env.mediaDir fname)).1
    (splitext (osJoin env.mediaDir fname)).2
  rwa [splitext_append (osJoin env.mediaDir fname)] at hb

/-- What one iteration of the download loop does to the manifest maps
and the filesystem: a skipped reference leaves the state alone; a fresh
reference lands in exactly one of the two maps according to `refOk`, a
network success claiming a destination that did not exist before. -/
theorem processOne_spec {env : AcqEnv} {st st' : AcqState} {murl : String}
    (h : processOne env st murl = some st') :
    ((murl = "" ∨ murl ∈ keys st.downloaded ∨ murl ∈ keys st.errors) ∧ st' = st) ∨
    (murl ≠ "" ∧ murl ∉ keys st.downloaded ∧ murl ∉ keys st.errors ∧ refOk env murl = true ∧
      ∃ d, st' = ⟨addFile st.fs d, st.downloaded ++ [(murl, d)], st.errors⟩ ∧
        (¬ strStarts murl "data:" → d ∉ st.fs)) ∨
    (murl ≠ "" ∧ murl ∉ keys st.downloaded ∧ murl ∉ keys st.errors ∧ refOk env murl = false ∧
      ∃ e, st'.downloaded = st.downloaded ∧ st'.errors = st.errors ++ [(murl, e)] ∧
        (st'.fs = st.fs ∨ ∃ d, st'.fs = addFile st.fs d)) := by
  unfold processOne at h
  by_cases h0 : murl = ""
  · rw [if_pos h0] at h
    exact Or.inl ⟨Or.inl h0, (Option.some_inj.mp h).symm⟩
  rw [if_neg h0] at h
  by_cases h1 : murl ∈ keys st.downloaded ∨ murl ∈ keys st.errors
  · rw [if_pos h1] at h
    exact Or.inl ⟨Or.inr h1, (Option.some_inj.mp h).symm⟩
  rw [if_neg h1] at h
  push_neg at h1
  obtain ⟨h1d, h1e⟩ := h1
  by_cases hd : strStarts murl "data:"
  · rw [if_pos hd] at h
    unfold processData at h
    split at h
    · simp at h
    next ct hct =>
      split at h
      · simp at h
      next ext0 hge =>
        split at h
        next raw hsv =>
          split at h
          next hw =>
            refine Or.inr (Or.inl ⟨h0, h1d, h1e, by simp [refOk, hd, hsv, hw], ?_⟩)
            exact ⟨_, (Option.some_inj.mp h).symm, fun hnd => absurd hd hnd⟩
          next e hw =>
            refine Or.inr (Or.inr ⟨h0, h1d, h1e, by simp [refOk, hd, hsv, hw], e, ?_⟩)
            cases h; exact ⟨rfl, rfl, Or.inr ⟨_, rfl⟩⟩
        next e hsv =>
          refine Or.inr (Or.inr ⟨h0, h1d, h1e, by simp [refOk, hd, hsv], e, ?_⟩)
          cases h; exact ⟨rfl, rfl, Or.inl rfl⟩
  · rw [if_neg hd] at h
    unfold processNet at h
    split at h
    · simp at h
    next fname hdf =>
      split at h
      next hdl =>
        refine Or.inr (Or.inl ⟨h0, h1d, h1e, by simp [refOk, hd, hdl], ?_⟩)
        exact ⟨_, (Option.some_inj.mp h).symm, fun _ => netDest_fresh env st.fs fname⟩
      next e hdl =>
        refine Or.inr (Or.inr ⟨h0, h1d, h1e, by simp [refOk, hd, hdl], e, ?_⟩)
        cases h; exact ⟨rfl, rfl, Or.inl rfl⟩
      next e hdl =>
        refine Or.inr (Or.inr ⟨h0, h1d, h1e, by simp [refOk, hd, hdl], e, ?_⟩)
        cases h; exact ⟨rfl, rfl, Or.inr ⟨_, rfl⟩⟩

/-- The destination handed to a network success is the collision-bumped
name, which `processOne_spec` already reports as fresh; this corollary
records that the filesystem only ever grows. -/
theorem processOne_fs_mono {env : AcqEnv} {st st' : AcqState} {murl : String}
    (h : processOne env st murl = some st') : ∀ x ∈ st.fs, x ∈ st'.fs := by
  rcases processOne_spec h with ⟨_, rfl⟩ | ⟨_, _, _, _, d, rfl, _⟩ | ⟨_, _, _, _, e, _, _, hfs⟩
  · exact fun x hx => hx
  · exact fun x hx => by simp [mem_addFile, hx]
  · rcases hfs with hfs | ⟨d, hfs⟩ <;> rw [hfs] <;> intro x hx
    · exact hx
    · simp [mem_addFile, hx]

theorem runLoop_fs_mono {env : AcqEnv} :
    ∀ {L : List String} {st st' : AcqState}, runLoop env L st = some st' →
      ∀ x ∈ st.fs, x ∈ st'.fs := by
  intro L
  induction L with
  | nil => intro st st' h x hx; cases h; exact hx
  | cons m rest ih =>
      intro st st' h x hx
      simp only [runLoop] at h
      cases hp : processOne env st m with
      | none => rw [hp, Option.none_bind] at h; exact absurd h (by simp)
      | some st1 =>
          rw [hp, Option.some_bind] at h
          exact ih h x (processOne_fs_mono hp x hx)

set_option maxHeartbeats 2000000 in
set_option maxHeartbeats 2000000 in
/-- Propositional core of the skip case of `runLoop_mem`. -/
theorem logic_skip {X1 X2 K1 K2 R M E F Mem : Prop} (hbool : F ↔ ¬E)
    (h1 : X1 ↔ K1 ∨ (R ∧ ¬K1 ∧ ¬K2 ∧ E)) (h2 : X2 ↔ K2 ∨ (R ∧ ¬K1 ∧ ¬K2 ∧ F))
    (hms : M → K1 ∨ K2) (hmem : Mem ↔ M ∨ R) :
    (X1 ↔ K1 ∨ (Mem ∧ ¬K1 ∧ ¬K2 ∧ E)) ∧ (X2 ↔ K2 ∨ (Mem ∧ ¬K1 ∧ ¬K2 ∧ F)) := by
  constructor
  · constructor
    · intro hx
      rcases h1.mp hx with hk | ⟨hR, ha, hb, he⟩
      · exact Or.inl hk
      · exact Or.inr ⟨hmem.mpr (Or.inr hR), ha, hb, he⟩
    · rintro (hk | ⟨hmm, ha, hb, he⟩)
      · exact h1.mpr (Or.inl hk)
      · rcases hmem.mp hmm with hM | hR
        · rcases hms hM with hk | hk
          · exact absurd hk ha
          · exact absurd hk hb
        · exact h1.mpr (Or.inr ⟨hR, ha, hb, he⟩)
  · constructor
    · intro hx
      rcases h2.mp hx with hk | ⟨hR, ha, hb, hf⟩
      · exact Or.inl hk
      · exact Or.inr ⟨hmem.mpr (Or.inr hR), ha, hb, hf⟩
    · rintro (hk | ⟨hmm, ha, hb, hf⟩)
      · exact h2.mpr (Or.inl hk)
      · rcases hmem.mp hmm with hM | hR
        · rcases hms hM with hk | hk
          · exact absurd hk ha
          · exact absurd hk hb
        · exact h2.mpr (Or.inr ⟨hR, ha, hb, hf⟩)

/-- Propositional core of the fresh-download case of `runLoop_mem`. -/
theorem logic_dl {X1 X2 K1 K2 R M E F Mem : Prop} (hbool : F ↔ ¬E)
    (h1 : X1 ↔ (K1 ∨ M) ∨ (R ∧ ¬(K1 ∨ M) ∧ ¬K2 ∧ E))
    (h2 : X2 ↔ K2 ∨ (R ∧ ¬(K1 ∨ M) ∧ ¬K2 ∧ F))
    (hmd2 : M → ¬K1) (hme2 : M → ¬K2) (hDE : M → E) (hmem : Mem ↔ M ∨ R) :
    (X1 ↔ K1 ∨ (Mem ∧ ¬K1 ∧ ¬K2 ∧ E)) ∧ (X2 ↔ K2 ∨ (Mem ∧ ¬K1 ∧ ¬K2 ∧ F)) := by
  constructor
  · constructor
    · intro hx
      rcases h1.mp hx with (hk | hM) | ⟨hR, hnkm, hb, he⟩
      · exact Or.inl hk
      · exact Or.inr ⟨hmem.mpr (Or.inl hM), hmd2 hM, hme2 hM, hDE hM⟩
      · exact Or.inr ⟨hmem.mpr (Or.inr hR), fun k => hnkm (Or.inl k), hb, he⟩
    · rintro (hk | ⟨hmm, ha, hb, he⟩)
      · exact h1.mpr (Or.inl (Or.inl hk))
      · by_cases hM : M
        · exact h1.mpr (Or.inl (Or.inr hM))
        · rcases hmem.mp hmm with hM2 | hR
          · exact absurd hM2 hM
          · exact h1.mpr (Or.inr ⟨hR, fun km => km.elim ha hM, hb, he⟩)
  · constructor
    · intro hx
      rcases h2.mp hx with hk | ⟨hR, hnkm, hb, hf⟩
      · exact Or.inl hk
      · exact Or.inr ⟨hmem.mpr (Or.inr hR), fun k => hnkm (Or.inl k), hb, hf⟩
    · rintro (hk | ⟨hmm, ha, hb, hf⟩)
      · exact h2.mpr (Or.inl hk)
      · by_cases hM : M
        · exact absurd (hDE hM) (hbool.mp hf)
        · rcases hmem.mp hmm with hM2 | hR
          · exact absurd hM2 hM
          · exact h2.mpr (Or.inr ⟨hR, fun km => km.elim ha hM, hb, hf⟩)

/-- Propositional core of the fresh-error case of `runLoop_mem`. -/
theorem logic_err {X1 X2 K1 K2 R M E F Mem : Prop} (hbool : F ↔ ¬E)
    (h1 : X1 ↔ K1 ∨ (R ∧ ¬K1 ∧ ¬(K2 ∨ M) ∧ E))
    (h2 : X2 ↔ (K2 ∨ M) ∨ (R ∧ ¬K1 ∧ ¬(K2 ∨ M) ∧ F))
    (hmd2 : M → ¬K1) (hme2 : M → ¬K2) (hDF : M → F) (hmem : Mem ↔ M ∨ R) :
    (X1 ↔ K1 ∨ (Mem ∧ ¬K1 ∧ ¬K2 ∧ E)) ∧ (X2 ↔ K2 ∨ (Mem ∧ ¬K1 ∧ ¬K2 ∧ F)) := by
  constructor
  · constructor
    · intro hx
      rcases h1.mp hx with hk | ⟨hR, ha, hnkm, he⟩
      · exact Or.inl hk
      · exact Or.inr ⟨hmem.mpr (Or.inr hR), ha, fun k => hnkm (Or.inl k), he⟩
    · rintro (hk | ⟨hmm, ha, hb, he⟩)
      · exact h1.mpr (Or.inl hk)
      · by_cases hM : M
        · exact absurd he (hbool.mp (hDF hM))
        · rcases hmem.mp hmm with hM2 | hR
          · exact absurd hM2 hM
          · exact h1.mpr (Or.inr ⟨hR, ha, fun km => km.elim hb hM, he⟩)
  · constructor
    · intro hx
      rcases h2.mp hx with (hk | hM) | ⟨hR, ha, hnkm, hf⟩
      · exact Or.inl hk
      · exact Or.inr ⟨hmem.mpr (Or.inl hM), hmd2 hM, hme2 hM, hDF hM⟩
      · exact Or.inr ⟨hmem.mpr (Or.inr hR), ha, fun k => hnkm (Or.inl k), hf⟩
    · rintro (hk | ⟨hmm, ha, hb, hf⟩)
      · exact h2.mpr (Or.inl (Or.inl hk))
      · by_cases hM : M
        · exact h2.mpr (Or.inl (Or.inr hM))
        · rcases hmem.mp hmm with hM2 | hR
          · exact absurd hM2 hM
          · exact h2.mpr (Or.inr ⟨hR, ha, fun km => km.elim hb hM, hf⟩)

/-- Membership in the final manifest maps, characterized over one run of
the loop: a nonempty reference ends in `downloaded` iff it was already
there or it is a fresh element of the list whose own processing succeeds,
and in `errors` iff already there or fresh and failing. -/
theorem runLoop_mem {env : AcqEnv} :
    ∀ (L : List String) (st st' : AcqState), runLoop env L st = some st' →
      ∀ r : String, r ≠ "" →
        (r ∈ keys st'.downloaded ↔ r ∈ keys st.downloaded ∨
          (r ∈ L ∧ r ∉ keys st.downloaded ∧ r ∉ keys st.errors ∧ refOk env r = true)) ∧
        (r ∈ keys st'.errors ↔ r ∈ keys st.errors ∨
          (r ∈ L ∧ r ∉ keys st.downloaded ∧ r ∉ keys st.errors ∧ refOk env r = false)) := by
  intro L
  induction L with
  | nil =>
      intro st st' h r hr
      cases h
      simp
  | cons m rest ih =>
      intro st st' h r hr
      simp only [runLoop] at h
      cases hp : processOne env st m with
      | none => rw [hp, Option.none_bind] at h; simp at h
      | some st1 =>
          rw [hp, Option.some_bind] at h
          have hrec := ih st1 st' h r hr
          have hbool : (refOk env r = false) ↔ ¬ (refOk env r = true) := by
            cases refOk env r <;> simp
          have hmemc : r ∈ m :: rest ↔ r = m ∨ r ∈ rest := List.mem_cons
          rcases processOne_spec hp with ⟨hskip, hsteq⟩ |
            ⟨hm0, hmd, hme, hok, d, hsteq, _⟩ | ⟨hm0, hmd, hme, hok, e, hdeq, heeq, _⟩
          · -- skipped: the state did not change and m is "" or already recorded
            rw [hsteq] at hrec
            have hms : r = m → r ∈ keys st.downloaded ∨ r ∈ keys st.errors := by
              intro hrm
              rcases hskip with hx | hx | hx
              · exact absurd (hrm.trans hx) hr
              · exact Or.inl (hrm ▸ hx)
              · exact Or.inr (hrm ▸ hx)
            exact logic_skip hbool hrec.1 hrec.2 hms hmemc
          · -- m freshly downloaded
            rw [hsteq] at hrec
            dsimp only at hrec
            have k1r : r ∈ keys (st.downloaded ++ [(m, d)]) ↔
                r ∈ keys st.downloaded ∨ r = m := by
              rw [keys_append_single]; simp
            have hmd2 : r = m → r ∉ keys st.downloaded := fun hh => hh ▸ hmd
            have hme2 : r = m → r ∉ keys st.errors := fun hh => hh ▸ hme
            have hDE : r = m → refOk env r = true := fun hh => hh ▸ hok
            rw [k1r] at hrec
            exact logic_dl hbool hrec.1 hrec.2 hmd2 hme2 hDE hmemc
          · -- m freshly recorded as an error
            rw [hdeq, heeq] at hrec
            have k2r : r ∈ keys (st.errors ++ [(m, e)]) ↔
                r ∈ keys st.errors ∨ r = m := by
              rw [keys_append_single]; simp
            have hmd2 : r = m → r ∉ keys st.downloaded := fun hh => hh ▸ hmd
            have hme2 : r = m → r ∉ keys st.errors := fun hh => hh ▸ hme
            have hDF : r = m → refOk env r = false := fun hh => hh ▸ hok
            rw [k2r] at hrec
            exact logic_err hbool hrec.1 hrec.2 hmd2 hme2 hDF hmemc

/-- Specialized to a run from an empty manifest: membership is exactly
list membership gated by the reference's own outcome. -/
theorem runLoop_mem_init {env : AcqEnv} {L : List String} {fs0 : List String}
    {st' : AcqState} (h : runLoop env L ⟨fs0, [], []⟩ = some st') {r : String} (hr : r ≠ "") :
    (r ∈ keys st'.downloaded ↔ r ∈ L ∧ refOk env r = true) ∧
    (r ∈ keys st'.errors ↔ r ∈ L ∧ refOk env r = false) := by
  have hm := runLoop_mem L ⟨fs0, [], []⟩ st' h r hr
  simpa [keys] using hm

/-! ## Lemmas: network downloads never share a destination -/

/-- Invariant carried through the loop: every network download's
destination exists on disk, and network downloads have pairwise distinct
destinations. -/
def netInv (st : AcqState) : Prop :=
  (∀ p ∈ st.downloaded, ¬ strStarts p.1 "data:" → p.2 ∈ st.fs) ∧
  (∀ p ∈ st.downloaded, ∀ q ∈ st.downloaded,
    ¬ strStarts p.1 "data:" → ¬ strStarts q.1 "data:" → p.1 ≠ q.1 → p.2 ≠ q.2)

theorem processOne_netInv {env : AcqEnv} {st st' : AcqState} {murl : String}
    (h : processOne env st murl = some st') (hinv : netInv st) : netInv st' := by
  rcases processOne_spec h with ⟨_, hsteq⟩ |
    ⟨hm0, hmd, hme, hok, d, hsteq, hfresh⟩ | ⟨_, _, _, _, e, hdeq, heeq, hfs⟩
  · rw [hsteq]; exact hinv
  · rw [hsteq]
    constructor
    · intro p hp hnd
      rcases List.mem_append.mp hp with hpo | hpn
      · exact (mem_addFile).mpr (Or.inr (hinv.1 p hpo hnd))
      · have : p = (murl, d) := by simpa using hpn
        subst this
        exact (mem_addFile).mpr (Or.inl rfl)
    · intro p hp q hq hpd hqd hne
      rcases List.mem_append.mp hp with hpo | hpn <;>
        rcases List.mem_append.mp hq with hqo | hqn
      · exact hinv.2 p hpo q hqo hpd hqd hne
      · have hq2 : q = (murl, d) := by simpa using hqn
        subst hq2
        intro heqd
        have h9 : p.2 = d := heqd
        exact hfresh hqd (h9 ▸ hinv.1 p hpo hpd)
      · have hp2 : p = (murl, d) := by simpa using hpn
        subst hp2
        intro heqd
        have h9 : d = q.2 := heqd
        exact hfresh hpd (h9.symm ▸ hinv.1 q hqo hqd)
      · have hp2 : p = (murl, d) := by simpa using hpn
        have hq2 : q = (murl, d) := by simpa using hqn
        subst hp2; subst hq2
        exact absurd rfl hne
  · constructor
    · intro p hp hnd
      rw [hdeq] at hp
      have hmem := hinv.1 p hp hnd
      rcases hfs with hfs2 | ⟨d2, hfs2⟩ <;> rw [hfs2]
      · exact hmem
      · exact (mem_addFile).mpr (Or.inr hmem)
    · intro p hp q hq
      rw [hdeq] at hp hq
      exact hinv.2 p hp q hq

theorem runLoop_netInv {env : AcqEnv} :
    ∀ {L : List String} {st st' : AcqState}, runLoop env L st = some st' →
      netInv st → netInv st' := by
  intro L
  induction L with
  | nil => intro st st' h hinv; cases h; exact hinv
  | cons m rest ih =>
      intro st st' h hinv
      simp only [runLoop] at h
      cases hp : processOne env st m with
      | none => rw [hp, Option.none_bind] at h; exact absurd h (by simp)
      | some st1 =>
          rw [hp, Option.some_bind] at h
          exact ih h (processOne_netInv hp hinv)

/-! ## Lemmas: `splitOnce` on explicit decompositions -/

theorem takeWhile_append_all {p : Char → Bool} {l1 l2 : List Char}
    (h : ∀ x ∈ l1, p x) : (l1 ++ l2).takeWhile p = l1 ++ l2.takeWhile p := by
  induction l1 with
  | nil => simp
  | cons a t ih =>
      have hpa : p a := h a (List.mem_cons_self a t)
      simp only [List.cons_append, List.takeWhile_cons, hpa, if_true]
      rw [ih (fun x hx => h x (List.mem_cons_of_mem a hx))]

theorem neChar_of_not_mem {c : Char} {l : List Char} (h : c ∉ l) :
    ∀ x ∈ l, neChar c x := by
  intro x hx
  simp only [neChar, decide_eq_true_eq]
  exact fun he => h (he ▸ hx)

theorem not_hasChar_not_mem {c : Char} {s : String} (h : ¬ hasChar c s) : c ∉ s.data := by
  simpa [hasChar] using h

theorem splitOnce_exact {c : Char} {pre post : String} (h : ¬ hasChar c pre) :
    splitOnce c (pre ++ String.mk [c] ++ post) = some (pre, post) := by
  simp only [splitOnce]
  have hdata : (pre ++ String.mk [c] ++ post).data = pre.data ++ c :: post.data := by
    simp [String.data_append]
  rw [hdata]
  have htw : (pre.data ++ c :: post.data).takeWhile (neChar c) = pre.data := by
    rw [takeWhile_append_all (neChar_of_not_mem (not_hasChar_not_mem h))]
    simp [List.takeWhile_cons, neChar]
  rw [htw]
  have hne : ¬ pre.data.length = (pre.data ++ c :: post.data).length := by
    simp
  rw [if_neg hne]
  have hdrop : (pre.data ++ c :: post.data).drop (pre.data.length + 1) = post.data := by
    have : pre.data ++ c :: post.data = (pre.data ++ [c]) ++ post.data := by simp
    rw [this, show pre.data.length + 1 = (pre.data ++ [c]).length by simp]
    exact List.drop_left _ _
  rw [hdrop]

theorem splitOnce_none {c : Char} {s : String} (h : ¬ hasChar c s) :
    splitOnce c s = none := by
  simp only [splitOnce]
  have htw : s.data.takeWhile (neChar c) = s.data := by
    rw [List.takeWhile_eq_self_iff]
    exact neChar_of_not_mem (not_hasChar_not_mem h)
  rw [htw, if_pos rfl]

/-! ## Claim C1 -/

/-- C1: the Session Bridge claim is contradicted by the code.  The claim
requires every cookie of the navigated context to be mirrored into the
HTTP session's jar; the source instead rebinds `context` to a freshly
created browser context (line 300) before reading `context.cookies()`,
so the jar is built from the empty cookie set, and no warning is ever
recorded for a domain-less cookie.  Evaluated at a navigated context
holding one fully-scoped cookie: the session's jar is empty (the cookie
is absent), the warning list is empty, and only the user-agent half of
the claim holds. -/
theorem claim_C1_session_bridge_drops_cookies :
    (sessionBridge [⟨"sid", "abc", some "ex.com", some "/"⟩]).jar = [] ∧
    (sessionBridge [⟨"sid", "abc", some "ex.com", some "/"⟩]).warnings = [] ∧
    (sessionBridge [⟨"sid", "abc", some "ex.com", some "/"⟩]).userAgent = contextUserAgent :=
  ⟨rfl, rfl, rfl⟩

/-! ## Claim C5 -/

/-- C5: for every data URI whose header (the part before the first
comma) contains the `";base64"` marker, the payload after the first comma
is base64-decoded (an undecodable payload is a caught decode error); the
spec's example `data:text/plain;base64,SGVsbG8=` decodes to `Hello`; and
a data URI with no comma fails with a decode error. -/
theorem claim_C5_base64_payload_decoded :
    (∀ header payload : String, ¬ hasChar ',' header → strHasSub ";base64" header = true →
      save_data_uri (header ++ "," ++ payload) =
        (match b64decode payload with
         | some raw => Except.ok raw
         | none => Except.error "invalid base64")) ∧
    save_data_uri "data:text/plain;base64,SGVsbG8=" = Except.ok (utf8Bytes "Hello") ∧
    (∀ uri : String, ¬ hasChar ',' uri → ∃ e, save_data_uri uri = Except.error e) := by
  refine ⟨?_, by rfl, ?_⟩
  · intro header payload hc hb
    unfold save_data_uri
    have hcomma : ("," : String) = String.mk [','] := rfl
    rw [hcomma, splitOnce_exact hc]
    simp [hb]
  · intro uri hc
    unfold save_data_uri
    rw [splitOnce_none hc]
    exact ⟨_, rfl⟩

/-- Witness for C5 at concrete inputs. -/
theorem claim_C5_base64_payload_decoded_witness :
    save_data_uri ("data:text/plain;base64" ++ "," ++ "SGVsbG8=") =
      (match b64decode "SGVsbG8=" with
       | some raw => Except.ok raw
       | none => Except.error "invalid base64") ∧
    (∃ e, save_data_uri "data:nocomma" = Except.error e) :=
  ⟨claim_C5_base64_payload_decoded.1 "data:text/plain;base64" "SGVsbG8=" (by decide) (by decide),
   claim_C5_base64_payload_decoded.2.2 "data:nocomma" (by decide)⟩

/-! ## Claim C6 -/

/-- C6 counterexample: the claim says a non-base64 data-URI payload is
percent-decoded before being written; the code writes the payload's UTF-8
bytes verbatim (`b64.encode("utf-8")`, line 235).  At `data:,a%20b` the
written bytes are those of `a%20b`, not the percent-decoding `a b`. -/
theorem claim_C6_counterexample_no_percent_decoding :
    save_data_uri "data:,a%20b" = Except.ok (utf8Bytes "a%20b") ∧
    utf8Bytes "a%20b" ≠ percentDecodeBytes "a%20b".data ∧
    percentDecodeBytes "a%20b".data = utf8Bytes "a b" :=
  ⟨by rfl, by decide, by decide⟩

/-- C6 (amended): for every data URI whose header does not contain the
base64 marker, the payload after the first comma is written verbatim as
its UTF-8 encoding — no percent-decoding is applied. -/
theorem claim_C6_payload_written_verbatim :
    ∀ header payload : String, ¬ hasChar ',' header →
      ¬ strHasSub ";base64" header = true →
      save_data_uri (header ++ "," ++ payload) = Except.ok (utf8Bytes payload) := by
  intro header payload hc hb
  unfold save_data_uri
  have hcomma : ("," : String) = String.mk [','] := rfl
  rw [hcomma, splitOnce_exact hc]
  simp [hb]

/-- Witness for the amended C6 at a concrete input. -/
theorem claim_C6_payload_written_verbatim_witness :
    save_data_uri ("data:text/plain" ++ "," ++ "a%20b") = Except.ok (utf8Bytes "a%20b") :=
  claim_C6_payload_written_verbatim "data:text/plain" "a%20b" (by decide) (by decide)

/-! ## Claim C9 -/

/-- C9 counterexample: the claim says that when the last path segment
contains an extension the filename is that segment sanitized — nothing
more.  For `https://ex.com/a.p!g` the sanitized segment is `a.p_g`, but
the code also appends the raw inferred extension whenever the sanitized
name no longer ends with it (line 389–390), producing `a.p_g.p!g`, which
moreover still contains the unsafe character `!`. -/
theorem claim_C9_counterexample_extension_appended :
    deriveFname (fun _ => none) "https://ex.com/a.p!g" none = some "a.p_g.p!g" ∧
    claimedFnameC9 (fun _ => none) "https://ex.com/a.p!g" none = some "a.p_g" ∧
    ("a.p_g.p!g" : String) ≠ "a.p_g" := by
  refine ⟨by decide, by decide, by decide⟩

/-- C9 (amended): the base filename of a network reference is derived
as the claim says with one addition — in the dotted-segment case the
inferred extension is appended whenever the sanitized segment does not
already end with it; the hash branch is exactly as claimed (hash of the
absolute location plus the inferred extension, default `.bin`). -/
theorem claim_C9_filename_derivation :
    ∀ (mimeExt : String → Option String) (absUrl : String) (ct : Option String)
      (parsed : ParseResult), urlparseE absUrl "" = some parsed →
      deriveFname mimeExt absUrl ct =
        some (if basename parsed.path = "" ∨ ¬ hasChar '.' (basename parsed.path) then
            sha16 absUrl ++
              (if guessExtCore mimeExt parsed ct = "" then ".bin"
               else guessExtCore mimeExt parsed ct)
          else if guessExtCore mimeExt parsed ct ≠ "" ∧
              ¬ strEnds (sanitize (basename parsed.path)) (guessExtCore mimeExt parsed ct) then
            sanitize (basename parsed.path) ++ guessExtCore mimeExt parsed ct
          else sanitize (basename parsed.path)) := by
  intro mimeExt absUrl ct parsed hp
  unfold deriveFname
  rw [hp]

/-- Witness for the amended C9 at a concrete input. -/
theorem claim_C9_filename_derivation_witness :
    deriveFname (fun _ => none) "https://ex.com/a.p!g" none =
      some (if basename (ParseResult.path ⟨"https", "ex.com", "/a.p!g", "", "", ""⟩) = "" ∨
          ¬ hasChar '.' (basename (ParseResult.path ⟨"https", "ex.com", "/a.p!g", "", "", ""⟩)) then
          sha16 "https://ex.com/a.p!g" ++
            (if guessExtCore (fun _ => none) ⟨"https", "ex.com", "/a.p!g", "", "", ""⟩ none = ""
             then ".bin"
             else guessExtCore (fun _ => none) ⟨"https", "ex.com", "/a.p!g", "", "", ""⟩ none)
        else if guessExtCore (fun _ => none) ⟨"https", "ex.com", "/a.p!g", "", "", ""⟩ none ≠ "" ∧
            ¬ strEnds (sanitize (basename (ParseResult.path ⟨"https", "ex.com", "/a.p!g", "", "", ""⟩)))
              (guessExtCore (fun _ => none) ⟨"https", "ex.com", "/a.p!g", "", "", ""⟩ none) then
          sanitize (basename (ParseResult.path ⟨"https", "ex.com", "/a.p!g", "", "", ""⟩)) ++
            guessExtCore (fun _ => none) ⟨"https", "ex.com", "/a.p!g", "", "", ""⟩ none
        else sanitize (basename (ParseResult.path ⟨"https", "ex.com", "/a.p!g", "", "", ""⟩))) :=
  claim_C9_filename_derivation (fun _ => none) "https://ex.com/a.p!g" none
    ⟨"https", "ex.com", "/a.p!g", "", "", ""⟩ (by decide)

/-! ## Claim C3 -/

/-- Environment for the C3 counterexample run. -/
def c3env : AcqEnv :=
  ⟨"https://ex.com/", "media", fun _ => none, fun _ => .success, fun _ => none, fun _ => none⟩

set_option maxRecDepth 8000 in
/-- C3 counterexample: two distinct references are assigned the same
destination path in one run.  `sha16 "data:,x" = "707ce201c2f97b77"`, so
the network reference `a://ex.com/707ce201c2f97b77.bin` (downloaded
first, in sorted order) claims `media/707ce201c2f97b77.bin`; the data URI
`data:,x` then derives the same hash name and `save_data_uri` writes it
with no existence check and no suffixing, so both references end in the
downloaded map with the same destination. -/
theorem claim_C3_counterexample_shared_destination :
    sha16 "data:,x" = "707ce201c2f97b77" ∧
    runLoop c3env (pySort ["a://ex.com/707ce201c2f97b77.bin", "data:,x"]) ⟨[], [], []⟩ =
      some ⟨["media/707ce201c2f97b77.bin"],
        [("a://ex.com/707ce201c2f97b77.bin", "media/707ce201c2f97b77.bin"),
         ("data:,x", "media/707ce201c2f97b77.bin")], []⟩ ∧
    ("a://ex.com/707ce201c2f97b77.bin" : String) ≠ "data:,x" := by
  refine ⟨by decide, by decide, by decide⟩

/-- C3 (amended): the incrementing-suffix collision avoidance applies
only to network references, so among references that are not data URIs
no two distinct ones are ever assigned the same destination path; a data
URI's destination is written with no existence check and may coincide
with another reference's destination. -/
theorem claim_C3_network_destinations_unique :
    ∀ (env : AcqEnv) (L fs0 : List String) (st' : AcqState),
      runLoop env L ⟨fs0, [], []⟩ = some st' →
      ∀ p ∈ st'.downloaded, ∀ q ∈ st'.downloaded,
        ¬ strStarts p.1 "data:" → ¬ strStarts q.1 "data:" → p.1 ≠ q.1 → p.2 ≠ q.2 := by
  intro env L fs0 st' h
  have hinit : netInv ⟨fs0, [], []⟩ := ⟨by simp, by simp⟩
  exact (runLoop_netInv h hinit).2

/-- Environment for the C3 witness run. -/
def c3wenv : AcqEnv :=
  ⟨"https://ex.com/", "media", fun _ => none, fun _ => .success, fun _ => none, fun _ => none⟩

set_option maxRecDepth 8000 in
/-- Witness for the amended C3: two network references with the same
base name get distinct, suffix-bumped destinations. -/
theorem claim_C3_network_destinations_unique_witness :
    ("media/x.png" : String) ≠ "media/x_1.png" :=
  claim_C3_network_destinations_unique c3wenv
    (pySort ["https://ex.com/x.png", "https://other.com/x.png"]) []
    ⟨["media/x_1.png", "media/x.png"],
      [("https://ex.com/x.png", "media/x.png"), ("https://other.com/x.png", "media/x_1.png")], []⟩
    (by decide)
    ("https://ex.com/x.png", "media/x.png") (by decide)
    ("https://other.com/x.png", "media/x_1.png") (by decide)
    (by decide) (by decide) (by decide)

/-! ## Claim C4 -/

/-- Environment for the C4 counterexample run: the HEAD probe raises for
every reference, the download succeeds. -/
def c4env : AcqEnv :=
  ⟨"https://ex.com/", "media", fun _ => none, fun _ => .success, fun _ => none, fun _ => none⟩

set_option maxRecDepth 8000 in
/-- C4 counterexample: the claim says a probe failure is converted into
that reference's error record.  In this run the probe raises for
`https://ex.com/x.png` (`headCT` returns `none`), yet the reference ends
in the downloaded map and the errors map stays empty — a probe failure
is caught and the download is still attempted, not recorded as an error. -/
theorem claim_C4_counterexample_probe_failure_not_an_error :
    c4env.headCT "https://ex.com/x.png" = none ∧
    runLoop c4env ["https://ex.com/x.png"] ⟨[], [], []⟩ =
      some ⟨["media/x.png"], [("https://ex.com/x.png", "media/x.png")], []⟩ := by
  refine ⟨by rfl, by decide⟩

/-- C4 (amended): failures are caught at the per-reference boundary and
never abort the batch; a download (or write) failure becomes exactly that
reference's error record, a probe or resolution failure merely leaves the
download to proceed; and every reference in the list is recorded
according to its own outcome, independent of the other references'. -/
theorem claim_C4_per_reference_isolation :
    ∀ (env : AcqEnv) (L fs0 : List String) (st' : AcqState),
      runLoop env L ⟨fs0, [], []⟩ = some st' →
      ∀ r ∈ L, r ≠ "" →
        (r ∈ keys st'.downloaded ↔ refOk env r = true) ∧
        (r ∈ keys st'.errors ↔ refOk env r = false) ∧
        (¬ strStarts r "data:" → env.dl r ≠ DlRes.success → r ∈ keys st'.errors) := by
  intro env L fs0 st' h r hrL hr
  have hm := runLoop_mem_init h hr
  refine ⟨?_, ?_, ?_⟩
  · rw [hm.1]
    exact ⟨fun hx => hx.2, fun hx => ⟨hrL, hx⟩⟩
  · rw [hm.2]
    exact ⟨fun hx => hx.2, fun hx => ⟨hrL, hx⟩⟩
  · intro hnd hfail
    rw [hm.2]
    refine ⟨hrL, ?_⟩
    simp [refOk, hnd, hfail]

/-- Environment for the C4 witness run: the download of `bad.png` times
out, the others succeed. -/
def c4wenv : AcqEnv :=
  ⟨"https://ex.com/", "media", fun _ => none,
    fun m => if m = "https://ex.com/bad.png" then .failNoFile "timeout" else .success,
    fun _ => none, fun _ => none⟩

set_option maxRecDepth 8000 in
/-- Witness for the amended C4: with one timing-out reference among
three, the failing one is recorded as an error and both others complete. -/
theorem claim_C4_per_reference_isolation_witness :
    ("https://ex.com/bad.png" ∈ keys [("https://ex.com/bad.png", "timeout")] ↔
      refOk c4wenv "https://ex.com/bad.png" = false) ∧
    ("https://ex.com/a.png" ∈
        keys [("https://ex.com/a.png", "media/a.png"), ("https://ex.com/c.png", "media/c.png")] ↔
      refOk c4wenv "https://ex.com/a.png" = true) := by
  have hrun : runLoop c4wenv ["https://ex.com/a.png", "https://ex.com/bad.png",
      "https://ex.com/c.png"] ⟨[], [], []⟩ =
      some ⟨["media/c.png", "media/a.png"],
        [("https://ex.com/a.png", "media/a.png"), ("https://ex.com/c.png", "media/c.png")],
        [("https://ex.com/bad.png", "timeout")]⟩ := by decide
  refine ⟨?_, ?_⟩
  · exact (claim_C4_per_reference_isolation c4wenv _ [] _ hrun
      "https://ex.com/bad.png" (by decide) (by decide)).2.1
  · exact (claim_C4_per_reference_isolation c4wenv _ [] _ hrun
      "https://ex.com/a.png" (by decide) (by decide)).1


/-! ## Lemmas: the stages of `urlsplitT` and where the fragment comes from -/

theorem urlsplitT_fragment (s d : String) :
    (urlsplitT s d).fragment =
      (fragStage (netStage (schemeStage d (cleanUrl s)).2).2).2 := rfl

theorem schemeStage_snd_indep (d d2 u : String) :
    (schemeStage d u).2 = (schemeStage d2 u).2 := by
  unfold schemeStage
  cases schemeSplit u <;> rfl

theorem urlsplitT_fragment_indep (s d d2 : String) :
    (urlsplitT s d).fragment = (urlsplitT s d2).fragment := by
  rw [urlsplitT_fragment, urlsplitT_fragment, schemeStage_snd_indep d d2]

theorem splitOnce_decomp {c : Char} {s a b : String} (h : splitOnce c s = some (a, b)) :
    s.data = a.data ++ c :: b.data := by
  simp only [splitOnce] at h
  split at h
  · simp at h
  next hne =>
    set tw := s.data.takeWhile (neChar c) with htw
    have ha : a.data = tw := by
      have := congrArg (fun p => (Prod.fst p).data) (Option.some_inj.mp h)
      simpa using this.symm
    have hb : b.data = s.data.drop (tw.length + 1) := by
      have := congrArg (fun p => (Prod.snd p).data) (Option.some_inj.mp h)
      simpa using this.symm
    have hdec : tw ++ s.data.dropWhile (neChar c) = s.data := by
      rw [htw]
      exact List.takeWhile_append_dropWhile _ _
    have hdw : s.data.dropWhile (neChar c) ≠ [] := by
      intro hnil
      have hlen := congrArg List.length hdec
      rw [hnil] at hlen
      simp at hlen
      exact hne hlen
    obtain ⟨c0, tail, hct⟩ := List.exists_cons_of_ne_nil hdw
    have hc0 : c0 = c := by
      have := dropWhile_head_not hct
      simpa [neChar] using this
    rw [hc0] at hct
    have hsdec : s.data = tw ++ c :: tail := by
      rw [← hct, hdec]
    have htail : b.data = tail := by
      rw [hb, hsdec]
      rw [show tw.length + 1 = (tw ++ [c]).length by simp]
      rw [show tw ++ c :: tail = (tw ++ [c]) ++ tail by simp]
      exact List.drop_left _ _
    rw [ha, htail]
    exact hsdec

theorem schemeSplit_inv {u sc rest : String} (h : schemeSplit u = some (sc, rest)) :
    ∃ a : String, splitOnce ':' u = some (a, rest) := by
  unfold schemeSplit at h
  split at h
  · exact absurd h (by simp)
  next pre0 rest0 heq =>
    split at h
    · have hr : rest0 = rest := congrArg Prod.snd (Option.some_inj.mp h)
      exact ⟨pre0, by rw [heq, hr]⟩
    · exact absurd h (by simp)

theorem schemeStage_suffix (d u : String) :
    ∃ pre : List Char, u.data = pre ++ ((schemeStage d u).2).data := by
  unfold schemeStage
  cases hs : schemeSplit u with
  | none => exact ⟨[], rfl⟩
  | some p =>
      obtain ⟨sc, rest⟩ := p
      obtain ⟨a, hso⟩ := schemeSplit_inv hs
      have hdec := splitOnce_decomp hso
      exact ⟨a.data ++ [':'], by simp [hdec]⟩

theorem drop_drop_suffix (l : List Char) (n k : Nat) :
    ∃ pre : List Char, l = pre ++ (l.drop n).drop k :=
  ⟨l.take n ++ (l.drop n).take k, by
    rw [List.append_assoc, List.take_append_drop, List.take_append_drop]⟩

theorem netStage_suffix (u : String) :
    ∃ pre : List Char, u.data = pre ++ ((netStage u).2).data := by
  unfold netStage
  by_cases hn : strStarts u "//"
  · rw [if_pos hn]
    simp only [splitNetloc]
    exact drop_drop_suffix u.data 2 _
  · rw [if_neg hn]
    exact ⟨[], rfl⟩

theorem fragStage_decomp {u : String} (h : (fragStage u).2 ≠ "") :
    u.data = ((fragStage u).1).data ++ '#' :: ((fragStage u).2).data := by
  unfold fragStage at h ⊢
  cases hf : splitOnce '#' u with
  | none => rw [hf] at h; simp at h
  | some p =>
      obtain ⟨a, b⟩ := p
      exact splitOnce_decomp hf

theorem split_frag (s d : String) (hclean : cleanUrl s = s)
    (hfrag : (urlsplitT s d).fragment ≠ "") :
    ∃ pre : String, s = pre ++ "#" ++ (urlsplitT s d).fragment := by
  rw [urlsplitT_fragment] at hfrag ⊢
  obtain ⟨p1, hp1⟩ := schemeStage_suffix d (cleanUrl s)
  obtain ⟨p2, hp2⟩ := netStage_suffix ((schemeStage d (cleanUrl s)).2)
  have hdec := fragStage_decomp hfrag
  refine ⟨String.mk (p1 ++ p2 ++
    ((fragStage (netStage (schemeStage d (cleanUrl s)).2).2).1).data),
    String.ext ?_⟩
  have hs : s.data = (cleanUrl s).data := (congrArg String.data hclean).symm
  rw [String.data_append, String.data_append, hs, hp1, hp2, hdec]
  simp

theorem urlunsplit_frag (sc nl u q f : String) (hf : f ≠ "") :
    ∃ pre : String, urlunsplit sc nl u q f = pre ++ "#" ++ f := by
  simp only [urlunsplit]
  rw [if_pos hf]
  exact ⟨_, rfl⟩

theorem urlunparse_frag (p : ParseResult) (hf : p.fragment ≠ "") :
    ∃ pre : String, urlunparse p = pre ++ "#" ++ p.fragment :=
  urlunsplit_frag p.scheme p.netloc
    (if p.params ≠ "" then p.path ++ ";" ++ p.params else p.path) p.query p.fragment hf

theorem parseOfSplit_fragment (r : SplitResult) :
    (parseOfSplit r).fragment = r.fragment := by
  unfold parseOfSplit
  split <;> rfl

theorem urlparseE_some {s d : String} {p : ParseResult} (h : urlparseE s d = some p) :
    p = parseOfSplit (urlsplitT s d) := by
  simp only [urlparseE, urlsplitE] at h
  split at h
  · simpa using h.symm
  · simp at h

theorem urlsplitT_empty_fragment (d : String) : (urlsplitT "" d).fragment = "" := by
  rw [urlsplitT_fragment]
  rfl

theorem urlunparse_frag_eq {p : ParseResult} {f : String} (hpf : p.fragment = f)
    (hf : f ≠ "") : ∃ pre : String, urlunparse p = pre ++ "#" ++ f := by
  obtain ⟨pre, hp⟩ := urlunparse_frag p (by rw [hpf]; exact hf)
  exact ⟨pre, by rw [hp, hpf]⟩

/-! ## Claim C7 -/

/-- C7 counterexample: the resolver (`urljoin`, lines 366-369) does not
strip fragment identifiers.  Resolving the reference `a.png#frag` (whose
parse has fragment `frag`) against `https://ex.com/` yields
`https://ex.com/a.png#frag`, which still contains the fragment. -/
theorem claim_C7_counterexample_fragment_kept :
    urljoin "https://ex.com/" "a.png#frag" = some "https://ex.com/a.png#frag" ∧
    (urlsplitT "a.png#frag" "").fragment = "frag" ∧
    hasChar '#' "https://ex.com/a.png#frag" = true := by decide

/-- C7 (amended): fragments are preserved, not stripped.  For every base
and reference (the reference free of the WHATWG strip set, so that
cleaning is the identity) whose parse carries a nonempty fragment, any
successful resolution `urljoin base ref` produces a location that still
ends in `#` followed by exactly that fragment. -/
theorem claim_C7_fragment_preserved (base ref res : String)
    (hres : urljoin base ref = some res)
    (hclean : cleanUrl ref = ref)
    (hfrag : (urlsplitT ref "").fragment ≠ "") :
    ∃ pre : String, res = pre ++ "#" ++ (urlsplitT ref "").fragment := by
  simp only [urljoin] at hres
  by_cases hb : base = ""
  · rw [if_pos hb] at hres
    cases hres
    exact split_frag ref "" hclean hfrag
  rw [if_neg hb] at hres
  by_cases hu : ref = ""
  · rw [hu] at hfrag
    exact absurd (urlsplitT_empty_fragment "") hfrag
  rw [if_neg hu] at hres
  split at hres
  · exact absurd hres (by simp)
  next b hpb =>
    split at hres
    · exact absurd hres (by simp)
    next u hpu =>
      have hufrag : u.fragment = (urlsplitT ref "").fragment := by
        rw [urlparseE_some hpu, parseOfSplit_fragment]
        exact urlsplitT_fragment_indep ref b.scheme ""
      split at hres
      · cases hres
        exact split_frag ref "" hclean hfrag
      split at hres
      · cases hres
        exact urlunparse_frag_eq hufrag hfrag
      split at hres
      · cases hres
        exact urlunparse_frag_eq hufrag hfrag
      · cases hres
        exact urlunparse_frag_eq hufrag hfrag

/-- Witness for C7 at a concrete join: resolving `a.png#frag` against
`https://ex.com/` keeps the fragment `frag` as a literal suffix. -/
theorem claim_C7_fragment_preserved_witness :
    ∃ pre : String,
      "https://ex.com/a.png#frag" = pre ++ "#" ++ (urlsplitT "a.png#frag" "").fragment :=
  claim_C7_fragment_preserved "https://ex.com/" "a.png#frag" "https://ex.com/a.png#frag"
    (by decide) (by decide) (by decide)

/-! ## Claim C8 -/

theorem mem_addAllJoins {base : String} {st ms : List String} {x : String}
    (hx : x ∈ (addAllJoins base st ms).1) :
    x ∈ st ∨ ∃ m ∈ ms, m ≠ "" ∧ urljoin base m = some x := by
  induction ms generalizing st with
  | nil => exact Or.inl hx
  | cons m rest ih =>
      unfold addAllJoins at hx
      by_cases hm : m ≠ ""
      · rw [if_pos hm] at hx
        cases hj : urljoin base m with
        | none =>
            rw [hj] at hx
            exact Or.inl hx
        | some j =>
            rw [hj] at hx
            rcases ih hx with h | ⟨m2, hmem, hne2, hj2⟩
            · rcases mem_addUniq.mp h with h0 | h0
              · exact Or.inl h0
              · exact Or.inr ⟨m, List.mem_cons_self m rest, hm, h0 ▸ hj⟩
            · exact Or.inr ⟨m2, List.mem_cons_of_mem m hmem, hne2, hj2⟩
      · rw [if_neg hm] at hx
        rcases ih hx with h | ⟨m2, hmem, hne2, hj2⟩
        · exact Or.inl h
        · exact Or.inr ⟨m2, List.mem_cons_of_mem m hmem, hne2, hj2⟩

theorem cssStep_mem {fetch : String → Option (Nat × String)} {startUrl : String}
    {st0 cssList : List String} {x : String}
    (hx : x ∈ cssStep fetch startUrl st0 cssList) :
    x ∈ st0 ∨ ∃ cssUrl ∈ cssList, ∃ cssAbs status text m,
      urljoin startUrl cssUrl = some cssAbs ∧
      fetch cssAbs = some (status, text) ∧ status = 200 ∧
      m ∈ findallUrlS text ∧ m ≠ "" ∧ urljoin cssAbs m = some x := by
  induction cssList generalizing st0 with
  | nil => exact Or.inl hx
  | cons cssUrl rest ih =>
      have lift : (x ∈ st0 ∨ ∃ c ∈ rest, ∃ cssAbs status text m,
          urljoin startUrl c = some cssAbs ∧
          fetch cssAbs = some (status, text) ∧ status = 200 ∧
          m ∈ findallUrlS text ∧ m ≠ "" ∧ urljoin cssAbs m = some x) →
          x ∈ st0 ∨ ∃ c ∈ cssUrl :: rest, ∃ cssAbs status text m,
          urljoin startUrl c = some cssAbs ∧
          fetch cssAbs = some (status, text) ∧ status = 200 ∧
          m ∈ findallUrlS text ∧ m ≠ "" ∧ urljoin cssAbs m = some x := by
        rintro (h | ⟨c, hc, w⟩)
        · exact Or.inl h
        · exact Or.inr ⟨c, List.mem_cons_of_mem cssUrl hc, w⟩
      unfold cssStep at hx
      split at hx
      · exact lift (ih hx)
      next cssAbs hj =>
        split at hx
        · exact lift (ih hx)
        next status text hf =>
          split at hx
          next hs =>
            rcases ih hx with h | tl
            · rcases mem_addAllJoins h with h0 | ⟨m, hmem, hmne, hjm⟩
              · exact Or.inl h0
              · exact Or.inr ⟨cssUrl, List.mem_cons_self cssUrl rest,
                  cssAbs, status, text, m, hj, hf, hs, hmem, hmne, hjm⟩
            · exact lift (Or.inr tl)
          next hs => exact lift (ih hx)

/-- The single-quote character, as CSS quotes it. -/
def c8quote : String := String.mk [Char.ofNat 39]

/-- The stylesheet body of the C8 example. -/
def c8text : String := "background: url(" ++ c8quote ++ "../assets/x.png" ++ c8quote ++ ")"

/-- The fetch oracle of the C8 example: only the stylesheet location
resolves, with status 200 and the example body. -/
def c8fetch : String → Option (Nat × String) :=
  fun u => if u = "https://ex.com/css/main.css" then some (200, c8text) else none

/-- C8: references extracted from a fetched stylesheet are resolved
against the stylesheet's own absolute location.  Universally: every
reference the stylesheet scan adds was obtained by joining a `url(...)`
match against the fetched stylesheet's absolute location `cssAbs` (never
against the page's base).  Concretely: a stylesheet fetched from
`https://ex.com/css/main.css` whose body is
`background: url(&#39;../assets/x.png&#39;)` contributes
`https://ex.com/assets/x.png` to the candidate set, the join being
performed against the stylesheet location. -/
theorem claim_C8_css_resolved_against_stylesheet :
    (∀ (fetch : String → Option (Nat × String)) (startUrl : String)
       (st0 cssList : List String) (x : String),
       x ∈ cssStep fetch startUrl st0 cssList →
       x ∈ st0 ∨ ∃ cssUrl ∈ cssList, ∃ cssAbs status text m,
         urljoin startUrl cssUrl = some cssAbs ∧
         fetch cssAbs = some (status, text) ∧ status = 200 ∧
         m ∈ findallUrlS text ∧ m ≠ "" ∧ urljoin cssAbs m = some x) ∧
    "https://ex.com/assets/x.png" ∈
      cssStep c8fetch "https://ex.com/blog/post" [] ["https://ex.com/css/main.css"] ∧
    findallUrlS c8text = ["../assets/x.png"] ∧
    urljoin "https://ex.com/css/main.css" "../assets/x.png" =
      some "https://ex.com/assets/x.png" := by
  refine ⟨fun fetch startUrl st0 cssList x hx => cssStep_mem hx, ?_, ?_, ?_⟩ <;> decide

/-- Witness for C8: the universal part of the claim applied to the
concrete example run; the asset joined against the stylesheet location
is recovered from the scan's output. -/
theorem claim_C8_css_resolved_against_stylesheet_witness :
    "https://ex.com/assets/x.png" ∈ ([] : List String) ∨
      ∃ cssUrl ∈ ["https://ex.com/css/main.css"], ∃ cssAbs status text m,
        urljoin "https://ex.com/blog/post" cssUrl = some cssAbs ∧
        c8fetch cssAbs = some (status, text) ∧ status = 200 ∧
        m ∈ findallUrlS text ∧ m ≠ "" ∧
        urljoin cssAbs m = some "https://ex.com/assets/x.png" :=
  claim_C8_css_resolved_against_stylesheet.1 c8fetch "https://ex.com/blog/post" []
    ["https://ex.com/css/main.css"] "https://ex.com/assets/x.png" (by decide)

/-! ## Lemmas: scheme characters and scheme reparsing -/

theorem strNeEmpty {s : String} (h : s.data ≠ []) : s ≠ "" :=
  fun he => h (congrArg String.data he)

theorem schemeChars_lower_mem : ∀ c ∈ schemeChars, lowerChar c ∈ schemeChars := by decide

theorem schemeChars_lower_alpha :
    ∀ c ∈ schemeChars, c.isAlpha = true → (lowerChar c).isAlpha = true := by decide

theorem schemeChars_lower_idem :
    ∀ c ∈ schemeChars, lowerChar (lowerChar c) = lowerChar c := by decide

theorem schemeChars_clean :
    ∀ c ∈ schemeChars, c0OrSpace c = false ∧ keepByte c = true := by decide

theorem schemeChars_no_colon : ':' ∉ schemeChars := by decide

theorem not_mem_not_hasChar {c : Char} {s : String} (h : c ∉ s.data) : ¬ hasChar c s := by
  simpa [hasChar] using h

theorem dropWhile_of_all_neg {p : Char → Bool} {l : List Char}
    (h : ∀ c ∈ l, p c = false) : l.dropWhile p = l := by
  cases l with
  | nil => rfl
  | cons a t =>
      exact List.dropWhile_cons_of_neg (by simp [h a (List.mem_cons_self a t)])

theorem cleanScheme_fixed {s : String} (h : ∀ c ∈ s.data, c ∈ schemeChars) :
    cleanScheme s = s := by
  unfold cleanScheme
  have h1 : s.data.dropWhile c0OrSpace = s.data :=
    dropWhile_of_all_neg (fun c hc => (schemeChars_clean c (h c hc)).1)
  rw [h1]
  have h2 : s.data.reverse.dropWhile c0OrSpace = s.data.reverse :=
    dropWhile_of_all_neg (fun c hc => (schemeChars_clean c (h c (List.mem_reverse.mp hc))).1)
  rw [h2, List.reverse_reverse]
  have h3 : s.data.filter keepByte = s.data :=
    List.filter_eq_self.mpr (fun c hc => (schemeChars_clean c (h c hc)).2)
  rw [h3]

theorem schemeSplit_props {u sc rest : String} (h : schemeSplit u = some (sc, rest)) :
    sc.data ≠ [] ∧ (sc.data.headD '0').isAlpha = true ∧
      (∀ c ∈ sc.data, c ∈ schemeChars) ∧ strLower sc = sc := by
  unfold schemeSplit at h
  split at h
  · exact absurd h (by simp)
  next pre0 rest0 heq =>
    split at h
    next hcond =>
      have hsc : strLower pre0 = sc := congrArg Prod.fst (Option.some_inj.mp h)
      obtain ⟨hne0, halpha0, hall0⟩ := hcond
      have hne : pre0.data ≠ [] := fun hnil => hne0 (String.ext hnil)
      have hall : ∀ c ∈ pre0.data, c ∈ schemeChars := by
        intro c hc
        simpa using List.all_eq_true.mp hall0 c hc
      subst hsc
      refine ⟨?_, ?_, ?_, ?_⟩
      · simp [strLower, hne]
      · cases hd : pre0.data with
        | nil => exact absurd hd hne
        | cons a t =>
            have ha : a ∈ pre0.data := hd ▸ List.mem_cons_self a t
            have hmap : (strLower pre0).data = lowerChar a :: t.map lowerChar := by
              simp [strLower, hd]
            rw [hmap]
            exact schemeChars_lower_alpha a (hall a ha) (by simpa [hd] using halpha0)
      · intro c hc
        simp only [strLower] at hc
        obtain ⟨a, ha, rfl⟩ := List.mem_map.mp hc
        exact schemeChars_lower_mem a (hall a ha)
      · apply String.ext
        simp only [strLower, List.map_map]
        exact List.map_congr_left (fun a ha => schemeChars_lower_idem a (hall a ha))
    next hcond => exact absurd h (by simp)

theorem dropWhile_cons_head {p : Char → Bool} {l : List Char} {a : Char} {t : List Char}
    (hd : l = a :: t) (hp : p a = false) : l.dropWhile p = l := by
  subst hd
  exact List.dropWhile_cons_of_neg (by simp [hp])

theorem clean_scheme_colon (sc tail : String)
    (hne : sc.data ≠ []) (hall : ∀ c ∈ sc.data, c ∈ schemeChars) :
    cleanUrl (sc ++ ":" ++ tail) =
      sc ++ String.mk [':'] ++ String.mk (tail.data.filter keepByte) := by
  apply String.ext
  unfold cleanUrl
  have hdata : (sc ++ ":" ++ tail).data = sc.data ++ ':' :: tail.data := by
    simp [String.data_append]
  rw [hdata]
  cases hd : sc.data with
  | nil => exact absurd hd hne
  | cons a t =>
      have ha : a ∈ sc.data := hd ▸ List.mem_cons_self a t
      have hdw : (sc.data ++ ':' :: tail.data).dropWhile c0OrSpace
          = sc.data ++ ':' :: tail.data :=
        dropWhile_cons_head (by rw [hd]; rfl) (schemeChars_clean a (hall a ha)).1
      rw [hd] at hdw
      rw [hdw]
      have hfsc : (sc.data).filter keepByte = sc.data :=
        List.filter_eq_self.mpr (fun c hc => (schemeChars_clean c (hall c hc)).2)
      rw [hd] at hfsc
      rw [List.filter_append, hfsc, List.filter_cons_of_pos (by decide)]
      simp [String.data_append, hd]

theorem reparse_scheme {sc tail : String}
    (hne : sc.data ≠ []) (halpha : (sc.data.headD '0').isAlpha = true)
    (hall : ∀ c ∈ sc.data, c ∈ schemeChars) :
    (urlsplitT (sc ++ ":" ++ tail) "").scheme = strLower sc := by
  have hclean := clean_scheme_colon sc tail hne hall
  have hno : ¬ hasChar ':' sc :=
    not_mem_not_hasChar (fun hmem => schemeChars_no_colon (hall ':' hmem))
  have hsplit : splitOnce ':' (cleanUrl (sc ++ ":" ++ tail)) =
      some (sc, String.mk (tail.data.filter keepByte)) := by
    rw [hclean]
    exact splitOnce_exact hno
  have hcond : sc ≠ "" ∧ (sc.data.headD '0').isAlpha = true ∧
      sc.data.all (fun c => decide (c ∈ schemeChars)) = true :=
    ⟨strNeEmpty hne, halpha, List.all_eq_true.mpr (fun c hc => decide_eq_true (hall c hc))⟩
  have hss : schemeSplit (cleanUrl (sc ++ ":" ++ tail)) =
      some (strLower sc, String.mk (tail.data.filter keepByte)) := by
    unfold schemeSplit
    rw [hsplit]
    show (if sc ≠ "" ∧ (sc.data.headD '0').isAlpha = true ∧
        (sc.data.all fun c => decide (c ∈ schemeChars)) = true then
        some (strLower sc, String.mk (tail.data.filter keepByte)) else none) =
      some (strLower sc, String.mk (tail.data.filter keepByte))
    rw [if_pos hcond]
  show (schemeStage "" (cleanUrl (sc ++ ":" ++ tail))).1 = strLower sc
  unfold schemeStage
  rw [hss]

theorem strAssoc (a b c : String) : a ++ b ++ c = a ++ (b ++ c) := by
  apply String.ext
  simp [String.data_append]

theorem prefix_extend {sc p : String} (h : ∃ tail : String, p = sc ++ ":" ++ tail)
    (x : String) : ∃ tail : String, p ++ x = sc ++ ":" ++ tail := by
  obtain ⟨tl, htl⟩ := h
  exact ⟨tl ++ x, by rw [htl]; exact strAssoc (sc ++ ":") tl x⟩

theorem urlunsplit_scheme_prefix (sc nl u q f : String) (h : sc ≠ "") :
    ∃ tail : String, urlunsplit sc nl u q f = sc ++ ":" ++ tail := by
  simp only [urlunsplit]
  rw [if_pos h]
  have base1 : ∀ x : String, ∃ tail : String, sc ++ ":" ++ x = sc ++ ":" ++ tail :=
    fun x => ⟨x, rfl⟩
  by_cases hq : q ≠ ""
  · rw [if_pos hq]
    by_cases hf : f ≠ ""
    · rw [if_pos hf]
      exact prefix_extend (prefix_extend (prefix_extend (prefix_extend (base1 _) "?") q) "#") f
    · rw [if_neg hf]
      exact prefix_extend (prefix_extend (base1 _) "?") q
  · rw [if_neg hq]
    by_cases hf : f ≠ ""
    · rw [if_pos hf]
      exact prefix_extend (prefix_extend (base1 _) "#") f
    · rw [if_neg hf]
      exact base1 _

theorem parseOfSplit_scheme (r : SplitResult) : (parseOfSplit r).scheme = r.scheme := by
  unfold parseOfSplit
  split <;> rfl

theorem urlsplitT_scheme (s d : String) :
    (urlsplitT s d).scheme = (schemeStage d (cleanUrl s)).1 := rfl

theorem urljoin_scheme {base raw res : String} (hb : startOK base = true)
    (hj : urljoin base raw = some res) :
    (urlsplitT res "").scheme ≠ "" := by
  unfold startOK at hb
  split at hb
  next s rest0 hbs =>
    obtain ⟨hsne, hsalpha, hsall, hslower⟩ := schemeSplit_props hbs
    have hbase_scheme : (urlsplitT base "").scheme = s := by
      rw [urlsplitT_scheme]
      unfold schemeStage
      rw [hbs]
    simp only [urljoin] at hj
    by_cases hb0 : base = ""
    · rw [hb0] at hbs
      have hnone : schemeSplit (cleanUrl "") = none := rfl
      rw [hnone] at hbs
      exact absurd hbs (by simp)
    rw [if_neg hb0] at hj
    by_cases hr0 : raw = ""
    · rw [if_pos hr0] at hj
      cases hj
      rw [hbase_scheme]
      exact strNeEmpty hsne
    rw [if_neg hr0] at hj
    split at hj
    · exact absurd hj (by simp)
    next b hpb =>
      have hbscheme : b.scheme = s := by
        rw [urlparseE_some hpb, parseOfSplit_scheme, hbase_scheme]
      split at hj
      · exact absurd hj (by simp)
      next u hpu =>
        have huscheme : u.scheme = (urlsplitT raw b.scheme).scheme := by
          rw [urlparseE_some hpu, parseOfSplit_scheme]
        split at hj
        next hc1 =>
          cases hj
          cases hrs : schemeSplit (cleanUrl raw) with
          | some p =>
              obtain ⟨sc2, rest2⟩ := p
              obtain ⟨h2ne, _, _, _⟩ := schemeSplit_props hrs
              have hsc2 : (urlsplitT raw "").scheme = sc2 := by
                rw [urlsplitT_scheme]
                unfold schemeStage
                rw [hrs]
              rw [hsc2]
              exact strNeEmpty h2ne
          | none =>
              exfalso
              have hu2 : u.scheme = cleanScheme b.scheme := by
                rw [huscheme, urlsplitT_scheme]
                unfold schemeStage
                rw [hrs]
              have hcs : cleanScheme b.scheme = b.scheme := by
                rw [hbscheme]
                exact cleanScheme_fixed hsall
              have hue : u.scheme = b.scheme := by rw [hu2, hcs]
              rcases hc1 with h | h
              · exact h hue
              · exact h (by rw [hue, hbscheme]; exact hb)
        next hc1 =>
          have hueq : u.scheme = b.scheme := by
            by_contra hne2
            exact hc1 (Or.inl hne2)
          have hkey : ∀ p : ParseResult, p.scheme = u.scheme →
              (urlsplitT (urlunparse p) "").scheme ≠ "" := by
            intro p hp
            have hps : p.scheme = s := by rw [hp, hueq, hbscheme]
            obtain ⟨tail, htail⟩ := urlunsplit_scheme_prefix p.scheme p.netloc
              (if p.params ≠ "" then p.path ++ ";" ++ p.params else p.path) p.query p.fragment
              (by rw [hps]; exact strNeEmpty hsne)
            have hup : urlunparse p = p.scheme ++ ":" ++ tail := htail
            rw [hup, hps, reparse_scheme hsne hsalpha hsall, hslower]
            exact strNeEmpty hsne
          split at hj
          next hc2 =>
            cases hj
            exact hkey _ rfl
          next hc2 =>
            split at hj
            next hc3 =>
              cases hj
              exact hkey _ rfl
            next hc3 =>
              cases hj
              exact hkey _ rfl
  next hbs => exact absurd hb (by simp)

/-! ## Lemmas: provenance and dedup of the collected set -/

/-- A reference obtained by joining a nonempty raw reference against the
base at collection time. -/
def joined (base x : String) : Prop :=
  ∃ raw : String, raw ≠ "" ∧ urljoin base raw = some x

theorem truthy_some {o : Option String} {s : String} (h : truthy o = some s) : s ≠ "" := by
  cases o with
  | none => exact absurd h (by simp [truthy])
  | some t =>
      by_cases ht : t = ""
      · rw [show truthy (some t) = none by simp [truthy, ht]] at h
        exact absurd h (by simp)
      · rw [show truthy (some t) = some t by simp [truthy, ht]] at h
        have hts := Option.some_inj.mp h
        subst hts
        exact ht

theorem srcsetFold_mem {base : String} {st l : List String} {x : String}
    (hx : x ∈ srcsetFold base st l) : x ∈ st ∨ joined base x := by
  induction l generalizing st with
  | nil => exact Or.inl hx
  | cons part rest ih =>
      unfold srcsetFold at hx
      split at hx
      · exact Or.inl hx
      next u us heq =>
        split at hx
        next hu =>
          split at hx
          · exact Or.inl hx
          next j hj =>
            rcases ih hx with h | h
            · rcases mem_addUniq.mp h with h0 | h0
              · exact Or.inl h0
              · exact Or.inr ⟨u, hu, h0 ▸ hj⟩
            · exact Or.inr h
        next hu =>
          rcases ih hx with h | h
          · exact Or.inl h
          · exact Or.inr h

theorem srcsetFold_nodup {base : String} {st l : List String} (h : st.Nodup) :
    (srcsetFold base st l).Nodup := by
  induction l generalizing st with
  | nil => exact h
  | cons part rest ih =>
      unfold srcsetFold
      split
      · exact h
      next u us heq =>
        split
        next hu =>
          split
          · exact h
          next j hj => exact ih (nodup_addUniq h)
        next hu => exact ih h

theorem processImg_mem {base : String} {st : List String} {el : ImgEl} {x : String}
    (hx : x ∈ processImg base st el) : x ∈ st ∨ joined base x := by
  simp only [processImg] at hx
  split at hx
  · exact Or.inl hx
  next st1 heq =>
    have h1 : x ∈ st1 → x ∈ st ∨ joined base x := by
      intro hx1
      split at heq
      next s hs =>
        cases hj : urljoin base s with
        | none => rw [hj] at heq; exact absurd heq (by simp)
        | some j =>
            rw [hj] at heq
            have hst1 : addUniq st j = st1 := by simpa using heq
            rcases mem_addUniq.mp (hst1 ▸ hx1) with h0 | h0
            · exact Or.inl h0
            · exact Or.inr ⟨s, truthy_some hs, h0 ▸ hj⟩
      next hs => exact Or.inl (Option.some_inj.mp heq ▸ hx1)
    split at hx
    · exact h1 hx
    next ss hss =>
      rcases srcsetFold_mem hx with h | h
      · exact h1 h
      · exact Or.inr h

theorem processImg_nodup {base : String} {st : List String} {el : ImgEl} (h : st.Nodup) :
    (processImg base st el).Nodup := by
  simp only [processImg]
  split
  · exact h
  next st1 heq =>
    have h1 : st1.Nodup := by
      split at heq
      next s hs =>
        cases hj : urljoin base s with
        | none => rw [hj] at heq; exact absurd heq (by simp)
        | some j =>
            rw [hj] at heq
            exact (by simpa using heq : addUniq st j = st1) ▸ nodup_addUniq h
      next hs => exact Option.some_inj.mp heq ▸ h
    split
    · exact h1
    next ss hss => exact srcsetFold_nodup h1

theorem processMediaEl_mem {base : String} {st : List String} {el : MediaEl} {x : String}
    (hx : x ∈ processMediaEl base st el) : x ∈ st ∨ joined base x := by
  simp only [processMediaEl] at hx
  split at hx
  · exact Or.inl hx
  next st1 heq =>
    have h1 : x ∈ st1 → x ∈ st ∨ joined base x := by
      intro hx1
      split at heq
      next s hs =>
        cases hj : urljoin base s with
        | none => rw [hj] at heq; exact absurd heq (by simp)
        | some j =>
            rw [hj] at heq
            have hst1 : addUniq st j = st1 := by simpa using heq
            rcases mem_addUniq.mp (hst1 ▸ hx1) with h0 | h0
            · exact Or.inl h0
            · exact Or.inr ⟨s, truthy_some hs, h0 ▸ hj⟩
      next hs => exact Or.inl (Option.some_inj.mp heq ▸ hx1)
    split at hx
    · exact h1 hx
    next s2 hsrc2 =>
      split at hx
      · exact h1 hx
      next j hj =>
        rcases mem_addUniq.mp hx with h0 | h0
        · exact h1 h0
        · have hs2 : s2 ≠ "" := by
            split at hsrc2
            next s hs => exact Option.some_inj.mp hsrc2 ▸ truthy_some hs
            next hs => exact truthy_some hsrc2
          exact Or.inr ⟨s2, hs2, h0 ▸ hj⟩

theorem processMediaEl_nodup {base : String} {st : List String} {el : MediaEl}
    (h : st.Nodup) : (processMediaEl base st el).Nodup := by
  simp only [processMediaEl]
  split
  · exact h
  next st1 heq =>
    have h1 : st1.Nodup := by
      split at heq
      next s hs =>
        cases hj : urljoin base s with
        | none => rw [hj] at heq; exact absurd heq (by simp)
        | some j =>
            rw [hj] at heq
            exact (by simpa using heq : addUniq st j = st1) ▸ nodup_addUniq h
      next hs => exact Option.some_inj.mp heq ▸ h
    split
    · exact h1
    next s2 hsrc2 =>
      split
      · exact h1
      next j hj => exact nodup_addUniq h1

theorem processLink_mem {base : String} {st : List String} {el : LinkEl} {x : String}
    (hx : x ∈ processLink base st el) : x ∈ st ∨ joined base x := by
  simp only [processLink] at hx
  split at hx
  next hcond =>
    split at hx
    next href hs =>
      split at hx
      · exact Or.inl hx
      next j hj =>
        rcases mem_addUniq.mp hx with h0 | h0
        · exact Or.inl h0
        · exact Or.inr ⟨href, truthy_some hs, h0 ▸ hj⟩
    next => exact Or.inl hx
  next => exact Or.inl hx

theorem processLink_nodup {base : String} {st : List String} {el : LinkEl}
    (h : st.Nodup) : (processLink base st el).Nodup := by
  simp only [processLink]
  split
  next hcond =>
    split
    next href hs =>
      split
      · exact h
      next j hj => exact nodup_addUniq h
    next => exact h
  next => exact h

theorem processOg_mem {base : String} {st : List String} {c : Option String} {x : String}
    (hx : x ∈ processOg base st c) : x ∈ st ∨ joined base x := by
  unfold processOg at hx
  split at hx
  next cc hs =>
    split at hx
    · exact Or.inl hx
    next j hj =>
      rcases mem_addUniq.mp hx with h0 | h0
      · exact Or.inl h0
      · exact Or.inr ⟨cc, truthy_some hs, h0 ▸ hj⟩
  next => exact Or.inl hx

theorem processOg_nodup {base : String} {st : List String} {c : Option String}
    (h : st.Nodup) : (processOg base st c).Nodup := by
  unfold processOg
  split
  next cc hs =>
    split
    · exact h
    next j hj => exact nodup_addUniq h
  next => exact h

theorem nodup_addAllJoins {base : String} {st ms : List String} (h : st.Nodup) :
    ((addAllJoins base st ms).1).Nodup := by
  induction ms generalizing st with
  | nil => exact h
  | cons m rest ih =>
      unfold addAllJoins
      by_cases hm : m ≠ ""
      · rw [if_pos hm]
        cases urljoin base m with
        | none => exact h
        | some j => exact ih (nodup_addUniq h)
      · rw [if_neg hm]
        exact ih h

theorem bgFold_mem {base : String} {st l : List String} {x : String}
    (hx : x ∈ bgFold base st l) : x ∈ st ∨ joined base x := by
  induction l generalizing st with
  | nil => exact Or.inl hx
  | cons item rest ih =>
      simp only [bgFold] at hx
      split at hx
      · rcases mem_addAllJoins hx with h | ⟨m, hm, hmne, hjm⟩
        · exact Or.inl h
        · exact Or.inr ⟨m, hmne, hjm⟩
      · rcases ih hx with h | h
        · rcases mem_addAllJoins h with h0 | ⟨m, hm, hmne, hjm⟩
          · exact Or.inl h0
          · exact Or.inr ⟨m, hmne, hjm⟩
        · exact Or.inr h

theorem bgFold_nodup {base : String} {st l : List String} (h : st.Nodup) :
    (bgFold base st l).Nodup := by
  induction l generalizing st with
  | nil => exact h
  | cons item rest ih =>
      simp only [bgFold]
      split
      · exact nodup_addAllJoins h
      · exact ih (nodup_addAllJoins h)

theorem styleFold_mem {base : String} {st l : List String} {x : String}
    (hx : x ∈ styleFold base st l) : x ∈ st ∨ joined base x := by
  induction l generalizing st with
  | nil => exact Or.inl hx
  | cons txt rest ih =>
      unfold styleFold at hx
      rcases ih hx with h | h
      · rcases mem_addAllJoins h with h0 | ⟨m, hm, hmne, hjm⟩
        · exact Or.inl h0
        · exact Or.inr ⟨m, hmne, hjm⟩
      · exact Or.inr h

theorem styleFold_nodup {base : String} {st l : List String} (h : st.Nodup) :
    (styleFold base st l).Nodup := by
  induction l generalizing st with
  | nil => exact h
  | cons txt rest ih =>
      unfold styleFold
      exact ih (nodup_addAllJoins h)

theorem processSheets_mem {base : String} {st cs : List String} {l : List (Option String)}
    {x : String} (hx : x ∈ (processSheets base st cs l).1) : x ∈ st ∨ joined base x := by
  induction l generalizing st cs with
  | nil => exact Or.inl hx
  | cons o rest ih =>
      unfold processSheets at hx
      split at hx
      · exact ih hx
      next href hs =>
        split at hx
        · exact ih hx
        next habs hj =>
          rcases ih hx with h | h
          · rcases mem_addUniq.mp h with h1 | h1
            · exact Or.inl h1
            · exact Or.inr ⟨href, truthy_some hs, h1 ▸ hj⟩
          · exact Or.inr h

theorem processSheets_nodup {base : String} {st cs : List String}
    {l : List (Option String)} (h : st.Nodup) : ((processSheets base st cs l).1).Nodup := by
  induction l generalizing st cs with
  | nil => exact h
  | cons o rest ih =>
      unfold processSheets
      split
      · exact ih h
      next href hs =>
        split
        · exact ih h
        next habs hj => exact ih (nodup_addUniq h)

theorem foldl_mem_inv {α : Type} {base : String} {f : List String → α → List String}
    (hf : ∀ (st : List String) (el : α) (x : String), x ∈ f st el → x ∈ st ∨ joined base x) :
    ∀ {l : List α} {st : List String} {x : String},
      x ∈ l.foldl f st → x ∈ st ∨ joined base x := by
  intro l
  induction l with
  | nil => intro st x hx; exact Or.inl hx
  | cons a t ih =>
      intro st x hx
      rcases ih hx with h | h
      · exact hf st a x h
      · exact Or.inr h

theorem foldl_nodup_inv {α : Type} {f : List String → α → List String}
    (hf : ∀ (st : List String) (el : α), st.Nodup → (f st el).Nodup) :
    ∀ {l : List α} {st : List String}, st.Nodup → (l.foldl f st).Nodup := by
  intro l
  induction l with
  | nil => intro st h; exact h
  | cons a t ih => intro st h; exact ih (hf st a h)

theorem collect_mem {base : String} {page : Page} {x : String}
    (hx : x ∈ (collect_media_urls base page).1) : joined base x := by
  simp only [collect_media_urls] at hx
  rcases styleFold_mem hx with h | h
  · rcases processSheets_mem h with h | h
    · rcases bgFold_mem h with h | h
      · rcases foldl_mem_inv (fun st c x0 hx0 => processOg_mem hx0) h with h | h
        · rcases foldl_mem_inv (fun st el x0 hx0 => processLink_mem hx0) h with h | h
          · rcases foldl_mem_inv (fun st el x0 hx0 => processMediaEl_mem hx0) h with h | h
            · rcases foldl_mem_inv (fun st el x0 hx0 => processImg_mem hx0) h with h | h
              · exact absurd h (List.not_mem_nil x)
              · exact h
            · exact h
          · exact h
        · exact h
      · exact h
    · exact h
  · exact h

theorem collect_nodup (base : String) (page : Page) :
    ((collect_media_urls base page).1).Nodup := by
  simp only [collect_media_urls]
  exact styleFold_nodup (processSheets_nodup (bgFold_nodup
    (foldl_nodup_inv (fun st c h => processOg_nodup h)
      (foldl_nodup_inv (fun st el h => processLink_nodup h)
        (foldl_nodup_inv (fun st el h => processMediaEl_nodup h)
          (foldl_nodup_inv (fun st el h => processImg_nodup h) List.nodup_nil))))))

/-! ## Claim C10 -/

/-- The page of the C10 witness: two raw `img` references (`a.png` and
`./a.png`) that resolve to the same absolute location, and one absolute
`og:image` reference. -/
def c10page : Page :=
  ⟨[⟨some "a.png", none⟩, ⟨some "./a.png", none⟩], [], [],
   [some "https://ex.com/og.png"], [], [], []⟩

/-- C10: for every base whose detected scheme lies in `uses_relative`
(every ordinary page address), the reference set the collector returns is
duplicate-free, and each of its elements was produced at collection time
by joining some nonempty raw reference against the base — so
deduplication operates on resolved absolute locations, and every element
is itself absolute: its reparse detects a nonempty scheme. -/
theorem claim_C10_collector_absolute :
    ∀ (base : String) (page : Page), startOK base = true →
      ((collect_media_urls base page).1.Nodup ∧
       ∀ x ∈ (collect_media_urls base page).1,
         (∃ raw : String, raw ≠ "" ∧ urljoin base raw = some x) ∧
         (urlsplitT x "").scheme ≠ "") := by
  intro base page hb
  refine ⟨collect_nodup base page, ?_⟩
  intro x hx
  obtain ⟨raw, hne, hjr⟩ := collect_mem hx
  exact ⟨⟨raw, hne, hjr⟩, urljoin_scheme hb hjr⟩

/-- Witness for C10: the collector run on a page holding the raw
references `a.png`, `./a.png` (which resolve to one location) and an
absolute `og:image`; the output is duplicate-free and every element is
an absolute join of a nonempty raw reference. -/
theorem claim_C10_collector_absolute_witness :
    ((collect_media_urls "https://ex.com/blog/post" c10page).1.Nodup ∧
     ∀ x ∈ (collect_media_urls "https://ex.com/blog/post" c10page).1,
       (∃ raw : String, raw ≠ "" ∧ urljoin "https://ex.com/blog/post" raw = some x) ∧
       (urlsplitT x "").scheme ≠ "") :=
  claim_C10_collector_absolute "https://ex.com/blog/post" c10page (by decide)

/-! ## Claim C2 -/

theorem urljoin_ne_empty {base m res : String} (hbs : (urlsplitT base "").scheme ≠ "")
    (hm : m ≠ "") (hj : urljoin base m = some res) : res ≠ "" := by
  simp only [urljoin] at hj
  by_cases hb0 : base = ""
  · rw [if_pos hb0] at hj
    cases hj
    exact hm
  rw [if_neg hb0, if_neg hm] at hj
  split at hj
  · exact absurd hj (by simp)
  next b hpb =>
    have hbsch : b.scheme ≠ "" := by
      rw [urlparseE_some hpb, parseOfSplit_scheme]
      exact hbs
    split at hj
    · exact absurd hj (by simp)
    next u hpu =>
      split at hj
      next hc1 =>
        cases hj
        exact hm
      next hc1 =>
        have hueq : u.scheme = b.scheme := by
          by_contra hne2
          exact hc1 (Or.inl hne2)
        have hkey : ∀ p : ParseResult, p.scheme = u.scheme → urlunparse p ≠ "" := by
          intro p hp
          obtain ⟨tail, htail⟩ := urlunsplit_scheme_prefix p.scheme p.netloc
            (if p.params ≠ "" then p.path ++ ";" ++ p.params else p.path) p.query p.fragment
            (by rw [hp, hueq]; exact hbsch)
          have hup : urlunparse p = p.scheme ++ ":" ++ tail := htail
          intro hres0
          rw [hres0] at hup
          have hd := congrArg String.data hup
          simp [String.data_append] at hd
        split at hj
        next hc2 =>
          cases hj
          exact hkey _ rfl
        next hc2 =>
          split at hj
          next hc3 =>
            cases hj
            exact hkey _ rfl
          next hc3 =>
            cases hj
            exact hkey _ rfl

theorem collectedSet_ne_empty {env : PipeEnv} (hb : startOK env.startUrl = true) :
    ∀ r ∈ collectedSet env, r ≠ "" := by
  intro r hr
  unfold collectedSet at hr
  rcases cssStep_mem hr with h |
    ⟨cssUrl, hcs, cssAbs, status, text, m, hjc, hf, hs, hmm, hmne, hjm⟩
  · obtain ⟨raw, hne, hjr⟩ := collect_mem h
    have hsch := urljoin_scheme hb hjr
    intro hre
    apply hsch
    rw [hre]
    rfl
  · exact urljoin_ne_empty (urljoin_scheme hb hjc) hmne hjm

/-- C2: after a completed run of the acquisition loop, every reference of
the collected set appears in exactly one of the manifest maps — in
`downloaded` when its own processing succeeds, in `errors` when it fails,
never in both and never in neither.  The start URL is assumed to carry an
ordinary relative-capable scheme (`startOK`), which makes every collected
reference nonempty. -/
theorem claim_C2_manifest_exactly_one (env : PipeEnv) (st2 : AcqState)
    (hb : startOK env.startUrl = true) (hrun : pipeline env = some st2) :
    ∀ r ∈ collectedSet env,
      (r ∈ keys st2.downloaded ∧ r ∉ keys st2.errors) ∨
      (r ∉ keys st2.downloaded ∧ r ∈ keys st2.errors) := by
  intro r hr
  have hrne := collectedSet_ne_empty hb r hr
  have hrun2 : runLoop (acqEnvOf env) (pySort (collectedSet env))
      ⟨env.fs0, [], []⟩ = some st2 := hrun
  have hinit := runLoop_mem_init hrun2 hrne
  have hrL : r ∈ pySort (collectedSet env) := mem_pySort.mpr hr
  cases hok : refOk (acqEnvOf env) r with
  | true =>
      refine Or.inl ⟨hinit.1.mpr ⟨hrL, hok⟩, ?_⟩
      intro he
      have hfalse := (hinit.2.mp he).2
      rw [hok] at hfalse
      exact absurd hfalse (by simp)
  | false =>
      refine Or.inr ⟨?_, hinit.2.mpr ⟨hrL, hok⟩⟩
      intro hd
      have htrue := (hinit.1.mp hd).2
      rw [hok] at htrue
      exact absurd htrue (by simp)

/-- The page-visit inputs of the C2 witness: a page with two `img`
references, one downloading fine and one timing out. -/
def c2env : PipeEnv :=
  ⟨"https://ex.com/blog/post", "media",
   ⟨[⟨some "a.png", none⟩, ⟨some "bad.png", none⟩], [], [], [], [], [], []⟩,
   fun _ => none,
   fun _ => none,
   fun u => if u = "https://ex.com/blog/a.png" then DlRes.success
     else DlRes.failNoFile "timeout",
   fun _ => none, fun _ => none, []⟩

/-- The manifest the C2 witness run produces. -/
def c2st : AcqState :=
  ⟨["media/a.png"],
   [("https://ex.com/blog/a.png", "media/a.png")],
   [("https://ex.com/blog/bad.png", "timeout")]⟩

set_option maxRecDepth 8000 in
/-- Witness for C2: on the concrete two-reference run, the collected
reference `https://ex.com/blog/a.png` lands in exactly one manifest
map. -/
theorem claim_C2_manifest_exactly_one_witness :
    ("https://ex.com/blog/a.png" ∈ keys c2st.downloaded ∧
     "https://ex.com/blog/a.png" ∉ keys c2st.errors) ∨
    ("https://ex.com/blog/a.png" ∉ keys c2st.downloaded ∧
     "https://ex.com/blog/a.png" ∈ keys c2st.errors) :=
  claim_C2_manifest_exactly_one c2env c2st (by decide) (by decide)
    "https://ex.com/blog/a.png" (by decide)

end Scrape
